import Mathlib

/-!
Verification of the zila compiler (lexer, stack-effect analyzer, lowering
compiler and x86-64 generator) against its natural-language specification.

The Rust sources are shallowly embedded as executable Lean functions.
General conventions of the embedding:

* Rust `usize`/`isize` become `Nat`/`Int`; `isize` overflow in
  `str::parse` is modelled explicitly via `isizeMax`.
* Every Rust function that can panic (`unwrap`, `todo!`, out-of-bounds
  slicing / indexing) or diverge (unbounded recursion through the
  unification context) is modelled in the `Option` monad, `none`
  standing for panic / divergence; recursive functions take an explicit
  fuel argument and return `none` when it runs out, so that every
  definition is a total, executable Lean function.
* `HashMap`s in the source are only ever used through `insert` and
  `get`, so they are modelled as association lists with
  prepend-insert (lookup returns the most recent binding, which is
  observationally the same as `HashMap::insert` overwriting).
* The lexer (`src/lexer.rs`) iterates over `char_indices`, i.e. byte
  positions.  The embedding represents the source as `List Char` and
  identifies byte positions with character positions, which is faithful
  exactly for ASCII sources; the theorems about the lexer therefore
  carry an ASCII hypothesis where they quantify over sources.
-/

/-! ### Lexer data model (src/lexer.rs) -/

/-- Byte span of a token.  Field `end` of the Rust struct is called
`stop` here because `end` is a Lean keyword. -/
structure Span where
  start : Nat
  stop : Nat
deriving Repr

/-- `Token<'src>`: borrowed slices become `List Char`. -/
inductive Token where
  | Integer (i : Int)
  | Symbol (s : List Char)
  | String (s : List Char)
deriving Repr

/-- `Word<'src>`: a token together with its span. -/
structure Word where
  token : Token
  span : Span
deriving Repr

/-- `char::is_whitespace` restricted to the ASCII range (the embedding
only models ASCII sources; on ASCII the Unicode `White_Space` property
holds exactly for these six characters). -/
def isRustWhitespace (c : Char) : Bool :=
  c = ' ' || c = '\t' || c = '\n' || c = '\x0b' || c = '\x0c' || c = '\r'

/-- `self.chars.find(|&(_, c)| !c.is_whitespace())`: position (relative
to the current iterator position), character and remaining characters of
the first non-whitespace character. -/
def findNonWs : List Char → Option (Nat × Char × List Char)
  | [] => none
  | c :: rest =>
    if isRustWhitespace c then
      match findNonWs rest with
      | none => none
      | some (i, c1, r) => some (i + 1, c1, r)
    else
      some (0, c, rest)

/-- The string-literal scanning loop of `Lexer::word`: given the escape
flag and the characters after the opening quote, returns the number of
times `end` was incremented and the characters remaining after the
closing quote (everything consumed if the quote is never closed). -/
def scanStr : Bool → List Char → Nat × List Char
  | _, [] => (0, [])
  | true, _ :: rest =>
    let (n, r) := scanStr false rest
    (n + 1, r)
  | false, c :: rest =>
    if c = '\\' then
      let (n, r) := scanStr true rest
      (n + 1, r)
    else if c = '"' then
      (0, rest)
    else
      let (n, r) := scanStr false rest
      (n + 1, r)

/-- The `self.chars.find(|&(_, c)| c.is_whitespace())` call of the
symbol/integer branch: number of further non-whitespace characters and
the characters remaining after the terminating whitespace character
(everything consumed when the input ends first). -/
def scanSym : List Char → Nat × List Char
  | [] => (0, [])
  | c :: rest =>
    if isRustWhitespace c then
      (0, rest)
    else
      let (n, r) := scanSym rest
      (n + 1, r)

/-- Value of a run of ASCII digits, as computed by `str::parse`. -/
def digitsToNat (l : List Char) : Nat :=
  l.foldl (fun a c => 10 * a + (c.toNat - '0'.toNat)) 0

/-- `isize::MAX` on the 64-bit targets the generator emits code for. -/
def isizeMax : Nat := 9223372036854775807

/-- `&source[a..b]` for an ASCII source. -/
def strSlice (src : List Char) (a b : Nat) : List Char :=
  (src.drop a).take (b - a)

/-- Result of one `Lexer::word` call: end of input, a panic
(`parse().unwrap()` overflow), or a word plus the new iterator state. -/
inductive LexStep where
  | eof
  | panic
  | word (w : Word) (pos : Nat) (rest : List Char)

/-- `Lexer::word` (src/lexer.rs lines 66-108) for an ASCII source.
`pos` is the byte position of the first character of `rest`. -/
def lexWord (src : List Char) (pos : Nat) (rest : List Char) : LexStep :=
  match findNonWs rest with
  | none => LexStep.eof
  | some (i, c, rest1) =>
    let start := pos + i
    if c = '"' then
      let (n, rest2) := scanStr false rest1
      let stop := min (start + n + 2) src.length
      LexStep.word ⟨Token.String (strSlice src start stop), ⟨start, stop⟩⟩
        (pos + (rest.length - rest2.length)) rest2
    else
      let (n, rest2) := scanSym rest1
      let stop := start + 1 + n
      let w := strSlice src start stop
      if w.all Char.isDigit then
        let v := digitsToNat w
        if v ≤ isizeMax then
          LexStep.word ⟨Token.Integer (Int.ofNat v), ⟨start, stop⟩⟩
            (pos + (rest.length - rest2.length)) rest2
        else
          LexStep.panic
      else
        LexStep.word ⟨Token.Symbol w, ⟨start, stop⟩⟩
          (pos + (rest.length - rest2.length)) rest2

/-- Driving the lexer to the end of input (the `Iterator` instance).
`none` models a panic or fuel exhaustion; `lexAll` supplies enough fuel
for it to mean panic only. -/
def lexFrom (src : List Char) : Nat → Nat → List Char → Option (List Word)
  | 0, _, _ => none
  | Nat.succ fuel, pos, rest =>
    match lexWord src pos rest with
    | LexStep.eof => some []
    | LexStep.panic => none
    | LexStep.word w pos1 rest1 =>
      match lexFrom src fuel pos1 rest1 with
      | none => none
      | some ws => some (w :: ws)

/-- The full token stream of a source. -/
def lexAll (src : List Char) : Option (List Word) :=
  lexFrom src (src.length + 1) 0 src

/-! ### Analyzer data model (src/analyzer.rs) -/

mutual
/-- `Type` of src/analyzer.rs (named `Ty`: `Type` is a Lean keyword). -/
inductive Ty where
  | Int : Ty
  | Bool : Ty
  | String : Ty
  | Var (n : Nat) : Ty
  | MultiVar (n : Nat) : Ty
  | Quotation (sig : Signature) : Ty
/-- `Signature { inputs, outputs }`. -/
inductive Signature where
  | mk (inputs : List Ty) (outputs : List Ty) : Signature
end

/-- Projection for the `inputs` field. -/
def Signature.inputs : Signature → List Ty
  | .mk i _ => i

/-- Projection for the `outputs` field. -/
def Signature.outputs : Signature → List Ty
  | .mk _ o => o

mutual
/-- `ItemKind<'src>`. -/
inductive ItemKind where
  | Integer (i : Int) : ItemKind
  | String (s : List Char) : ItemKind
  | Word (sig : Signature) (name : List Char) : ItemKind
  | Quotation (sig : Signature) (items : List Item) : ItemKind
/-- `Item<'src>`: an item kind with its span. -/
inductive Item where
  | mk (kind : ItemKind) (span : Span) : Item
end

/-- Projection for the `kind` field. -/
def Item.kind : Item → ItemKind
  | .mk k _ => k

/-- Projection for the `span` field. -/
def Item.span : Item → Span
  | .mk _ s => s

/-- `CompileError<'src>`. -/
inductive CompileError where
  | UndefinedWord (word : Word)
  | CannotExecSignature (word : Word) (stack : List Ty) (sig : Signature)

/-- `Context`: the two substitution maps and the two fresh-id
counters.  The `HashMap`s are modelled as association lists. -/
structure Ctx where
  var_context : List (Nat × Ty)
  multivar_context : List (Nat × List Ty)
  var_gen : Nat
  multivar_gen : Nat

/-- `Context::new`. -/
def Ctx.new : Ctx := ⟨[], [], 0, 0⟩

/-- `Context::get_var`. -/
def Ctx.get_var (c : Ctx) (v : Nat) : Option Ty :=
  c.var_context.lookup v

/-- `Context::get_multivar`. -/
def Ctx.get_multivar (c : Ctx) (v : Nat) : Option (List Ty) :=
  c.multivar_context.lookup v

/-- `Context::set_var` (`HashMap::insert`, modelled by prepending). -/
def Ctx.set_var (c : Ctx) (v : Nat) (t : Ty) : Ctx :=
  { c with var_context := (v, t) :: c.var_context }

/-- `Context::set_multivar`. -/
def Ctx.set_multivar (c : Ctx) (v : Nat) (ts : List Ty) : Ctx :=
  { c with multivar_context := (v, ts) :: c.multivar_context }

/-- `Context::gen_var`. -/
def Ctx.gen_var (c : Ctx) : Nat × Ctx :=
  (c.var_gen, { c with var_gen := c.var_gen + 1 })

/-- `Context::gen_multivar`. -/
def Ctx.gen_multivar (c : Ctx) : Nat × Ctx :=
  (c.multivar_gen, { c with multivar_gen := c.multivar_gen + 1 })

/-- `State<'src>`: the signature being accumulated and the items
produced so far for one lexical scope. -/
structure St where
  signature : Signature
  items : List Item

/-- `State::new`. -/
def St.new : St := ⟨.mk [] [], []⟩

/-- `State::push_output` (`Vec::push`, i.e. append at the end; the top
of the symbolic stack is the last element of `outputs`). -/
def St.push_output (st : St) (t : Ty) : St :=
  ⟨.mk st.signature.inputs (st.signature.outputs ++ [t]), st.items⟩

/-- `State::push_input`. -/
def St.push_input (st : St) (t : Ty) : St :=
  ⟨.mk (st.signature.inputs ++ [t]) st.signature.outputs, st.items⟩

/-- Popping `state.signature.outputs` (`Vec::pop`). -/
def St.pop_output (st : St) : Option (Ty × St) :=
  match st.signature.outputs.getLast? with
  | none => none
  | some t => some (t, ⟨.mk st.signature.inputs st.signature.outputs.dropLast, st.items⟩)

/-- `state.items.push(item)`. -/
def St.push_item (st : St) (it : Item) : St :=
  ⟨st.signature, st.items ++ [it]⟩

/-- The fixed table built by `Analyzer::register_builtins`.  The
`HashMap` is only read through `get`, and all keys are distinct, so an
association list in insertion order is faithful. -/
def builtins : List (List Char × Signature) :=
  [(("+").toList, .mk [.Int, .Int] [.Int]),
   (("-").toList, .mk [.Int, .Int] [.Int]),
   (("*").toList, .mk [.Int, .Int] [.Int]),
   (("/").toList, .mk [.Int, .Int] [.Int]),
   (("exit").toList, .mk [.Int] []),
   (("puts").toList, .mk [.String] []),
   (("true").toList, .mk [] [.Bool]),
   (("false").toList, .mk [] [.Bool]),
   (("dup").toList, .mk [.Var 0] [.Var 0, .Var 0]),
   (("swap").toList, .mk [.Var 1, .Var 0] [.Var 1, .Var 0]),
   (("drop").toList, .mk [.Var 0] []),
   (("over").toList, .mk [.Var 1, .Var 0] [.Var 0, .Var 1, .Var 0]),
   (("apply").toList,
     .mk [.Quotation (.mk [.MultiVar 0] [.MultiVar 1]), .MultiVar 0] [.MultiVar 1]),
   (("?").toList, .mk [.Var 0, .Var 0, .Bool] [.Var 0])]

/-! ### Unification (src/analyzer.rs lines 267-389) -/

mutual
/-- `State::unify`.  The `State` receiver is never read or written by
unification, so only the context is threaded through.  `none` is fuel
exhaustion (the Rust code recurses through context bindings and can
loop on a cyclic context). -/
def unify : Nat → Word → Signature → List Ty → Ty → Ty → Ctx →
    Option (Except CompileError Ctx)
  | 0, _, _, _, _, _, _ => none
  | Nat.succ fuel, word, sig, shot, a, b, ctx =>
    match a, b with
    | .Bool, .Bool => some (.ok ctx)
    | .Int, .Int => some (.ok ctx)
    | .String, .String => some (.ok ctx)
    | .Var v, t =>
      match ctx.get_var v with
      | some v_t => unify fuel word sig shot v_t t ctx
      | none =>
        match t with
        | .Var t_var =>
          if t_var = v then some (.ok ctx)
          else some (.ok (ctx.set_var v t))
        | _ => some (.ok (ctx.set_var v t))
    | t, .Var v =>
      match ctx.get_var v with
      | some v_t => unify fuel word sig shot v_t t ctx
      | none => some (.ok (ctx.set_var v t))
    | .Quotation a_sig, .Quotation b_sig =>
      unifySignature fuel word sig a_sig b_sig shot ctx
    | _, _ => some (.error (.CannotExecSignature word shot sig))
/-- `State::unify_signature`. -/
def unifySignature : Nat → Word → Signature → Signature → Signature → List Ty → Ctx →
    Option (Except CompileError Ctx)
  | 0, _, _, _, _, _, _ => none
  | Nat.succ fuel, word, sig, a, b, shot, ctx =>
    match unifyStack fuel word sig a.inputs b.inputs shot ctx with
    | none => none
    | some (.error e) => some (.error e)
    | some (.ok ctx1) => unifyStack fuel word sig a.outputs b.outputs shot ctx1
/-- `State::unify_stack`. -/
def unifyStack : Nat → Word → Signature → List Ty → List Ty → List Ty → Ctx →
    Option (Except CompileError Ctx)
  | 0, _, _, _, _, _, _ => none
  | Nat.succ fuel, word, sig, a, b, shot, ctx =>
    match b.getLast? with
    | some (.MultiVar b_mv) =>
      let b_rest := b.dropLast
      let len := b_rest.length
      if a.length < len then
        some (.error (.CannotExecSignature word shot sig))
      else
        match unifyPairs fuel word sig ((a.take len).zip b_rest) shot ctx with
        | none => none
        | some (.error e) => some (.error e)
        | some (.ok ctx1) => some (.ok (ctx1.set_multivar b_mv (a.drop len)))
    | _ =>
      match a.getLast? with
      | some (.MultiVar a_mv) =>
        let a_rest := a.dropLast
        let len := a_rest.length
        if b.length < len then
          some (.error (.CannotExecSignature word shot sig))
        else
          match unifyPairs fuel word sig (a_rest.zip (b.take len)) shot ctx with
          | none => none
          | some (.error e) => some (.error e)
          | some (.ok ctx1) => some (.ok (ctx1.set_multivar a_mv (b.drop len)))
      | _ =>
        if a.length ≠ b.length then
          some (.error (.CannotExecSignature word shot sig))
        else
          unifyPairs fuel word sig (a.zip b) shot ctx
/-- The element-wise `for … in … .zip(…)` loops of `unify_stack`. -/
def unifyPairs : Nat → Word → Signature → List (Ty × Ty) → List Ty → Ctx →
    Option (Except CompileError Ctx)
  | 0, _, _, _, _, _ => none
  | Nat.succ fuel, word, sig, pairs, shot, ctx =>
    match pairs with
    | [] => some (.ok ctx)
    | (x, y) :: rest =>
      match unify fuel word sig shot x y ctx with
      | none => none
      | some (.error e) => some (.error e)
      | some (.ok ctx1) => unifyPairs fuel word sig rest shot ctx1
end

/-! ### Resolution (src/analyzer.rs lines 146-229) -/

mutual
/-- `State::resolve_type`: returns the list of types the Rust code
pushes onto `stack` (the caller appends it).  `none` models the
`.unwrap()` panic on an empty resolution as well as divergence through
a cyclic context (fuel exhaustion). -/
def resolveType : Nat → Ctx → Ty → Option (List Ty)
  | 0, _, _ => none
  | Nat.succ fuel, ctx, t =>
    match t with
    | .Int => some [Ty.Int]
    | .Bool => some [Ty.Bool]
    | .String => some [Ty.String]
    | .Var v =>
      match ctx.get_var v with
      | some var =>
        match resolveType fuel ctx var with
        | none => none
        | some [] => none
        | some (x :: _) => some [x]
      | none => some [Ty.Var v]
    | .MultiVar v =>
      match ctx.get_multivar v with
      | some var =>
        match resolveTypes fuel ctx var with
        | none => none
        | some resolved => some resolved
      | none => some [Ty.MultiVar v]
    | .Quotation sig =>
      match resolveSignature fuel ctx sig with
      | none => none
      | some s => some [Ty.Quotation s]
/-- Resolving each element of a list in order, concatenating the
results (the `for`/`for_each` loops feeding `resolve_type`). -/
def resolveTypes : Nat → Ctx → List Ty → Option (List Ty)
  | 0, _, _ => none
  | Nat.succ fuel, ctx, ts =>
    match ts with
    | [] => some []
    | t :: rest =>
      match resolveType fuel ctx t with
      | none => none
      | some l =>
        match resolveTypes fuel ctx rest with
        | none => none
        | some r => some (l ++ r)
/-- `State::resolve_signature`. -/
def resolveSignature : Nat → Ctx → Signature → Option Signature
  | 0, _, _ => none
  | Nat.succ fuel, ctx, s =>
    match resolveTypes fuel ctx s.inputs with
    | none => none
    | some new_inputs =>
      match resolveTypes fuel ctx s.outputs with
      | none => none
      | some new_outputs => some (.mk new_inputs new_outputs)
end

mutual
/-- `State::resolve_item`. -/
def resolveItem : Nat → Ctx → Item → Option Item
  | 0, _, _ => none
  | Nat.succ fuel, ctx, .mk kind span =>
    match kind with
    | .Quotation sig items =>
      match resolveItems fuel ctx items with
      | none => none
      | some new_items =>
        match resolveSignature fuel ctx sig with
        | none => none
        | some s => some (.mk (.Quotation s new_items) span)
    | .Word sig word =>
      match resolveSignature fuel ctx sig with
      | none => none
      | some s => some (.mk (.Word s word) span)
    | k => some (.mk k span)
/-- The item loop of `resolve_all`. -/
def resolveItems : Nat → Ctx → List Item → Option (List Item)
  | 0, _, _ => none
  | Nat.succ fuel, ctx, items =>
    match items with
    | [] => some []
    | it :: rest =>
      match resolveItem fuel ctx it with
      | none => none
      | some it1 =>
        match resolveItems fuel ctx rest with
        | none => none
        | some r => some (it1 :: r)
end

/-- `State::resolve_all`. -/
def resolveAll (fuel : Nat) (st : St) (ctx : Ctx) : Option (Signature × List Item) :=
  match resolveSignature fuel ctx st.signature with
  | none => none
  | some signature =>
    match resolveItems fuel ctx st.items with
    | none => none
    | some new_items => some (signature, new_items)

/-! ### Instantiation (src/analyzer.rs lines 231-265) -/

/-- `State::instantiate`.  Faithful to the source, the `MultiVar`
branch reads and writes `local_vars` (not `local_multivars`), so
`local_multivars` is threaded through unchanged. -/
def instantiateList : Nat → List Ty → List (Nat × Nat) → List (Nat × Nat) → Ctx →
    Option (List Ty × List (Nat × Nat) × List (Nat × Nat) × Ctx)
  | 0, _, _, _, _ => none
  | Nat.succ fuel, ts, local_vars, local_multivars, ctx =>
    match ts with
    | [] => some ([], local_vars, local_multivars, ctx)
    | t :: rest =>
      let step : Option (Ty × List (Nat × Nat) × List (Nat × Nat) × Ctx) :=
        match t with
        | .Int => some (t, local_vars, local_multivars, ctx)
        | .Bool => some (t, local_vars, local_multivars, ctx)
        | .String => some (t, local_vars, local_multivars, ctx)
        | .Var n =>
          match local_vars.lookup n with
          | some var => some (.Var var, local_vars, local_multivars, ctx)
          | none =>
            let (var, ctx1) := ctx.gen_var
            some (.Var var, (n, var) :: local_vars, local_multivars, ctx1)
        | .MultiVar n =>
          match local_vars.lookup n with
          | some var => some (.MultiVar var, local_vars, local_multivars, ctx)
          | none =>
            let (var, ctx1) := ctx.gen_multivar
            some (.MultiVar var, (n, var) :: local_vars, local_multivars, ctx1)
        | .Quotation q_sig =>
          match instantiateList fuel q_sig.inputs local_vars local_multivars ctx with
          | none => none
          | some (new_inputs, lv1, lmv1, ctx1) =>
            match instantiateList fuel q_sig.outputs lv1 lmv1 ctx1 with
            | none => none
            | some (new_outputs, lv2, lmv2, ctx2) =>
              some (.Quotation (.mk new_inputs new_outputs), lv2, lmv2, ctx2)
      match step with
      | none => none
      | some (t1, lv1, lmv1, ctx1) =>
        match instantiateList fuel rest lv1 lmv1 ctx1 with
        | none => none
        | some (rest1, lv2, lmv2, ctx2) => some (t1 :: rest1, lv2, lmv2, ctx2)

/-! ### Applying a signature (src/analyzer.rs lines 523-577) -/

mutual
/-- `Analyzer::try_signature`.  The mutated `sig` (instantiated in
place in Rust) is returned so that `check_word` can store it in the
item.  `none` models the `todo!("undefined multivar")` panic, panics
inside resolution, and fuel exhaustion. -/
def trySignature : Nat → Word → St → Signature → Ctx → Bool →
    Option (Except CompileError (St × Signature × Ctx))
  | 0, _, _, _, _, _ => none
  | Nat.succ fuel, word, st, sig, ctx, inst =>
    let stack := st.signature.outputs
    let instantiated : Option (Signature × Ctx) :=
      if inst then
        match instantiateList fuel sig.inputs [] [] ctx with
        | none => none
        | some (new_inputs, lv1, lmv1, ctx1) =>
          match instantiateList fuel sig.outputs lv1 lmv1 ctx1 with
          | none => none
          | some (new_outputs, _, _, ctx2) => some (.mk new_inputs new_outputs, ctx2)
      else some (sig, ctx)
    match instantiated with
    | none => none
    | some (sig1, ctx1) =>
      match tryInputs fuel word stack sig1 sig1.inputs st ctx1 with
      | none => none
      | some (.error e) => some (.error e)
      | some (.ok (st1, ctx2)) =>
        match resolveTypes fuel ctx2 sig1.outputs with
        | none => none
        | some new_outputs =>
          let st2 : St := ⟨.mk st1.signature.inputs (st1.signature.outputs ++ new_outputs),
            st1.items⟩
          some (.ok (st2, sig1, ctx2))
/-- The `for input in &sig.inputs` loop of `try_signature`.  `shot` is
the `stack` snapshot taken at the start of the enclosing
`try_signature` call; `sig` is the full (instantiated) signature used
in error payloads. -/
def tryInputs : Nat → Word → List Ty → Signature → List Ty → St → Ctx →
    Option (Except CompileError (St × Ctx))
  | 0, _, _, _, _, _, _ => none
  | Nat.succ fuel, word, shot, sig, inputs, st, ctx =>
    match inputs with
    | [] => some (.ok (st, ctx))
    | input :: rest =>
      match input with
      | .MultiVar mv =>
        match ctx.get_multivar mv with
        | none => none
        | some tys =>
          match trySignature fuel word st (.mk tys []) ctx false with
          | none => none
          | some (.error e) => some (.error e)
          | some (.ok (st1, _, ctx1)) => tryInputs fuel word shot sig rest st1 ctx1
      | _ =>
        match st.pop_output with
        | some (ty, st1) =>
          match unify fuel word sig shot input ty ctx with
          | none => none
          | some (.error e) => some (.error e)
          | some (.ok ctx1) => tryInputs fuel word shot sig rest st1 ctx1
        | none => tryInputs fuel word shot sig rest (st.push_input input) ctx
end

/-! ### Checking the word stream (src/analyzer.rs lines 453-521) -/

mutual
/-- `Analyzer::check_word`.  The `Peekable` word iterator is the list
of remaining words, returned updated. -/
def checkWord : Nat → List Word → St → Ctx →
    Option (Except CompileError (List Word × St × Ctx))
  | 0, _, _, _ => none
  | Nat.succ fuel, words, st, ctx =>
    match words with
    | [] => some (.ok ([], st, ctx))
    | word :: rest =>
      match word.token with
      | .Integer i =>
        let st1 := (st.push_output .Int).push_item (.mk (.Integer i) word.span)
        some (.ok (rest, st1, ctx))
      | .String s =>
        let st1 := (st.push_output .String).push_item (.mk (.String s) word.span)
        some (.ok (rest, st1, ctx))
      | .Symbol s =>
        if s = ("[").toList then
          match quotationLoop fuel rest St.new ctx with
          | none => none
          | some (.error e) => some (.error e)
          | some (.ok (rest1, qst, ctx1)) =>
            let rest2 := rest1.tail
            match resolveAll fuel qst ctx1 with
            | none => none
            | some (sig, items) =>
              let st1 := (st.push_output (.Quotation sig)).push_item
                (.mk (.Quotation sig items) word.span)
              some (.ok (rest2, st1, ctx1))
        else
          match builtins.lookup s with
          | none => some (.error (.UndefinedWord word))
          | some signature =>
            match trySignature fuel word st signature ctx true with
            | none => none
            | some (.error e) => some (.error e)
            | some (.ok (st1, sig1, ctx1)) =>
              let st2 := st1.push_item (.mk (.Word sig1 s) word.span)
              some (.ok (rest, st2, ctx1))
/-- The `while … !matches!(…, Token::Symbol("]"))` loop inside the
quotation branch of `check_word`. -/
def quotationLoop : Nat → List Word → St → Ctx →
    Option (Except CompileError (List Word × St × Ctx))
  | 0, _, _, _ => none
  | Nat.succ fuel, words, st, ctx =>
    match words with
    | [] => some (.ok ([], st, ctx))
    | word :: _ =>
      let isClose : Bool :=
        match word.token with
        | .Symbol s => s = ("]").toList
        | _ => false
      if isClose then
        some (.ok (words, st, ctx))
      else
        match checkWord fuel words st ctx with
        | none => none
        | some (.error e) => some (.error e)
        | some (.ok (rest, st1, ctx1)) => quotationLoop fuel rest st1 ctx1
end

/-- The `while analyzer.words.peek().is_some()` loop of
`Analyzer::analyze`. -/
def analyzeLoop : Nat → List Word → St → Ctx →
    Option (Except CompileError (St × Ctx))
  | 0, _, _, _ => none
  | Nat.succ fuel, words, st, ctx =>
    match words with
    | [] => some (.ok (st, ctx))
    | _ :: _ =>
      match checkWord fuel words st ctx with
      | none => none
      | some (.error e) => some (.error e)
      | some (.ok (rest, st1, ctx1)) => analyzeLoop fuel rest st1 ctx1

/-- `Analyzer::analyze`, additionally returning the final `Context`
(which the Rust function drops) so that properties of the final
substitution can be stated. -/
def analyzeFull (fuel : Nat) (words : List Word) :
    Option (Except CompileError (Signature × List Item × Ctx)) :=
  match analyzeLoop fuel words St.new Ctx.new with
  | none => none
  | some (.error e) => some (.error e)
  | some (.ok (st, ctx)) =>
    match resolveAll fuel st ctx with
    | none => none
    | some (signature, word_types) => some (.ok (signature, word_types, ctx))

/-- `Analyzer::analyze` proper. -/
def analyze (fuel : Nat) (words : List Word) :
    Option (Except CompileError (Signature × List Item)) :=
  match analyzeFull fuel words with
  | none => none
  | some (.error e) => some (.error e)
  | some (.ok (signature, word_types, _)) => some (.ok (signature, word_types))

/-- Lexing a source text and analyzing the resulting word stream. -/
def analyzeSrc (fuel : Nat) (s : String) :
    Option (Except CompileError (Signature × List Item)) :=
  match lexAll s.toList with
  | none => none
  | some words => analyze fuel words

/-! ### Lowering compiler data model (src/compiler.rs) -/

/-- `Type::size` (impl block at the top of src/compiler.rs). -/
def Ty.size : Ty → Option Nat
  | .Var _ => none
  | .MultiVar _ => none
  | .Bool => some 1
  | .Int => some 1
  | .Quotation _ => some 1
  | .String => some 2

/-- `Label<'src>`. -/
structure Label where
  id : Nat
  name : Option (List Char)
deriving Repr

/-- `Instruction<'src>`. -/
inductive Instruction where
  | PushInt (i : Int)
  | PushBool (b : Bool)
  | PushString (i : Nat)
  | PushQuote (l : Label)
  | Add
  | Sub
  | Mul
  | Div
  | Exit
  | Puts
  | Dup (size : Nat)
  | Swap (size_a size_b : Nat)
  | Drop (size : Nat)
  | Over (size_a size_b : Nat)
  | Apply
  | Branch (size : Nat)
deriving Repr

/-- `Proc<'src>`. -/
structure Proc where
  label : Label
  code : List (Span × Instruction)
deriving Repr

/-- The state of `Compiler<'src>`. -/
structure CompilerSt where
  procs : List Proc
  string_literals : List (List Char)

/-- The escape-processing loop of `escape` (src/compiler.rs lines
85-105); the `Bool` is `is_escaped`. -/
def escapeGo : Bool → List Char → List Char
  | _, [] => []
  | true, c :: rest =>
    match c with
    | 'n' => '\n' :: escapeGo false rest
    | '\\' => '\\' :: escapeGo false rest
    | '"' => '"' :: escapeGo false rest
    | _ => escapeGo false rest
  | false, c :: rest =>
    if c = '\\' then escapeGo true rest
    else c :: escapeGo false rest

/-- `escape`. -/
def escape (s : List Char) : List Char := escapeGo false s

/-- `Compiler::add_instruction`: `self.procs[label.id].code.push(…)`.
`none` models the index panic (never reached from `compile`). -/
def addInstruction (c : CompilerSt) (label : Label) (instruction : Instruction)
    (span : Span) : Option CompilerSt :=
  match c.procs.get? label.id with
  | none => none
  | some p =>
    some { c with procs := c.procs.set label.id ⟨p.label, p.code ++ [(span, instruction)]⟩ }

/-- `Compiler::new_proc`. -/
def newProc (c : CompilerSt) (name : Option (List Char)) : Label × CompilerSt :=
  let id := c.procs.length
  let label : Label := ⟨id, name⟩
  (label, { c with procs := c.procs ++ [⟨label, []⟩] })

mutual
/-- `Compiler::compile_item_to_block`.  `none` models the panics:
`todo!` for user-defined words, `unwrap()` on `size()` of an unresolved
type, indexing `inputs[0]`/`inputs[1]` out of bounds, and the
out-of-range string slice `&s[1..s.len() - 2]` when the raw literal is
shorter than 3 bytes. -/
def compileItem : Nat → Item → Label → CompilerSt → Option CompilerSt
  | 0, _, _, _ => none
  | Nat.succ fuel, item, label, c =>
    match item with
    | .mk kind span =>
      match kind with
      | .Quotation _ items =>
        let (quotation_proc, c1) := newProc c none
        match compileItems fuel items quotation_proc c1 with
        | none => none
        | some c2 => addInstruction c2 label (.PushQuote quotation_proc) span
      | .Integer i => addInstruction c label (.PushInt i) span
      | .String s =>
        if s.length < 3 then none
        else
          let string_id := c.string_literals.length
          let c1 := { c with
            string_literals := c.string_literals ++ [escape ((s.drop 1).take (s.length - 3))] }
          addInstruction c1 label (.PushString string_id) span
      | .Word sig name =>
        if name = ("true").toList then addInstruction c label (.PushBool true) span
        else if name = ("false").toList then addInstruction c label (.PushBool false) span
        else if name = ("+").toList then addInstruction c label .Add span
        else if name = ("-").toList then addInstruction c label .Sub span
        else if name = ("*").toList then addInstruction c label .Mul span
        else if name = ("/").toList then addInstruction c label .Div span
        else if name = ("exit").toList then addInstruction c label .Exit span
        else if name = ("puts").toList then addInstruction c label .Puts span
        else if name = ("dup").toList then
          match sig.inputs.get? 0 with
          | none => none
          | some t =>
            match t.size with
            | none => none
            | some size => addInstruction c label (.Dup size) span
        else if name = ("drop").toList then
          match sig.inputs.get? 0 with
          | none => none
          | some t =>
            match t.size with
            | none => none
            | some size => addInstruction c label (.Drop size) span
        else if name = ("swap").toList then
          match sig.inputs.get? 0, sig.inputs.get? 1 with
          | some t0, some t1 =>
            (match t0.size, t1.size with
             | some size_a, some size_b => addInstruction c label (.Swap size_a size_b) span
             | _, _ => none)
          | _, _ => none
        else if name = ("over").toList then
          match sig.inputs.get? 0, sig.inputs.get? 1 with
          | some t0, some t1 =>
            (match t0.size, t1.size with
             | some size_a, some size_b => addInstruction c label (.Over size_a size_b) span
             | _, _ => none)
          | _, _ => none
        else if name = ("apply").toList then addInstruction c label .Apply span
        else if name = ("?").toList then
          match sig.inputs.get? 0 with
          | none => none
          | some t =>
            match t.size with
            | none => none
            | some size => addInstruction c label (.Branch size) span
        else none
/-- The item loops of `Compiler::compile` and of the quotation branch. -/
def compileItems : Nat → List Item → Label → CompilerSt → Option CompilerSt
  | 0, _, _, _ => none
  | Nat.succ fuel, items, label, c =>
    match items with
    | [] => some c
    | item :: rest =>
      match compileItem fuel item label c with
      | none => none
      | some c1 => compileItems fuel rest label c1
end

/-- `Compiler::compile`. -/
def compile (fuel : Nat) (items : List Item) :
    Option (List Proc × List (List Char)) :=
  let c0 : CompilerSt := ⟨[], []⟩
  let (main_proc, c1) := newProc c0 none
  match compileItems fuel items main_proc c1 with
  | none => none
  | some c2 => some (c2.procs, c2.string_literals)

/-- The whole front half of the pipeline: lex, analyze, lower. -/
def compileSrc (fuel : Nat) (s : String) :
    Option (Except CompileError (List Proc × List (List Char))) :=
  match lexAll s.toList with
  | none => none
  | some words =>
    match analyze fuel words with
    | none => none
    | some (.error e) => some (.error e)
    | some (.ok (_, items)) =>
      match compile fuel items with
      | none => none
      | some r => some (.ok r)

/-- The string-literal pool produced for a source text. -/
def poolOfSrc (fuel : Nat) (s : String) :
    Option (Except CompileError (List (List Char))) :=
  match compileSrc fuel s with
  | none => none
  | some (.error e) => some (.error e)
  | some (.ok (_, pool)) => some (.ok pool)

/-! ### x86-64 generator (src/x86_64gen.rs) -/

/-- `impl fmt::Display for Label`. -/
def labelDisplay (l : Label) : String :=
  match l.name with
  | some name => "proc_" ++ toString l.id ++ "_" ++ name.asString
  | none => "proc_" ++ toString l.id

/-- The `{:?}` debug rendering of `Span` used in the emitted
instruction comments (the derived `Debug` prints the Rust field names
`start` and `end`). -/
def spanDebug (sp : Span) : String :=
  "Span \x7b start: " ++ toString sp.start ++ ", end: " ++ toString sp.stop ++ " \x7d"

/-- `Generator::emit_copy_up`: one pair of `mov` lines per copied cell,
then the `add rcx` adjustment. -/
def emitCopyUp (offset : Int) (size : Nat) : List String :=
  ((List.range size).map (fun i =>
    let byte_offset : Int := offset - 8 * ((size - i : Nat) : Int)
    ["    mov rax, [rcx + " ++ toString byte_offset ++ "]",
     "    mov [rcx + " ++ toString (i * 8) ++ "], rax"])).flatten
  ++ ["    add rcx, " ++ toString (size * 8)]

/-- `Generator::emit_drop`. -/
def emitDrop (size : Nat) : List String :=
  ["    sub rcx, " ++ toString (size * 8)]

/-- `Generator::gen_instruction`: the exact sequence of lines written
to the output sink for one instruction.  `none` models the `todo!()`
panic on `Div` and the out-of-bounds `self.string_literals[i]` index. -/
def genInstruction (string_literals : List (List Char)) (span : Span)
    (instruction : Instruction) : Option (List String) :=
  match instruction with
  | .PushInt i =>
    some ["    ; " ++ spanDebug span ++ " -- PUSHINT",
      "    mov qword [rcx], " ++ toString i,
      "    add rcx, 8"]
  | .PushBool b =>
    some ["    ; " ++ spanDebug span ++ " -- PUSHBOOL",
      "    mov qword [rcx], " ++ toString (if b then (-1 : Int) else 0),
      "    add rcx, 8"]
  | .PushString i =>
    match string_literals.get? i with
    | none => none
    | some lit =>
      some ["    ; " ++ spanDebug span ++ " -- PUSHSTRING",
        "    lea rax, [rel str_" ++ toString i ++ "]",
        "    mov [rcx], rax",
        "    mov rax, " ++ toString lit.length,
        "    mov [rcx + 8], rax",
        "    add rcx, 16"]
  | .PushQuote q =>
    some ["    ; " ++ spanDebug span ++ " -- PUSHQUOTE",
      "    mov qword [rcx], " ++ labelDisplay q,
      "    add rcx, 8"]
  | .Apply =>
    some ["    ; " ++ spanDebug span ++ " -- APPLY",
      "    sub rcx, 8",
      "    call [rcx]"]
  | .Branch size =>
    let cond_off : Int := -8 * (2 * (size : Int) + 1)
    let true_off_start : Int := -8 * ((size : Int) + 1)
    let false_off_start : Int := -8 * 1
    let result_off_start : Int := cond_off
    some (["    ; " ++ spanDebug span ++ " -- BRANCH",
      "    mov rax, [rcx - " ++ toString (-cond_off) ++ "]",
      "    mov rbx, rax",
      "    not rbx"]
      ++ ((List.range size).map (fun i =>
        let true_i : Int := true_off_start - 8 * (i : Int)
        let false_i : Int := false_off_start - 8 * (i : Int)
        let res_i : Int := result_off_start - 8 * (i : Int)
        ["    mov rdx, [rcx - " ++ toString (-true_i) ++ "]",
         "    and rdx, rax",
         "    mov rsi, [rcx - " ++ toString (-false_i) ++ "]",
         "    and rsi, rbx",
         "    or rdx, rsi",
         "    mov [rcx - " ++ toString (-res_i) ++ "], rdx"])).flatten
      ++ ["    sub rcx, " ++ toString (16 * size)])
  | .Exit =>
    some ["    ; " ++ spanDebug span ++ " -- EXIT",
      "    mov rax, 60",
      "    mov rdi, [rcx - 8]",
      "    syscall"]
  | .Puts =>
    some ["    ; " ++ spanDebug span ++ " -- PUTS",
      "    mov rdi, 1",
      "    mov rsi, [rcx - 16]",
      "    mov rdx, [rcx - 8]",
      "    mov rax, 1",
      "    syscall",
      "    sub rcx, 16"]
  | .Add =>
    some ["    ; " ++ spanDebug span ++ " -- ADD",
      "    mov rax, [rcx - 8]",
      "    add [rcx - 16], rax",
      "    sub rcx, 8"]
  | .Sub =>
    some ["    ; " ++ spanDebug span ++ " -- SUB",
      "    mov rax, [rcx - 8]",
      "    sub [rcx - 16], rax",
      "    sub rcx, 8"]
  | .Mul =>
    some ["    ; " ++ spanDebug span ++ " -- MUL",
      "    mov rax, [rcx - 8]",
      "    imul [rcx - 16], rax",
      "    sub rcx, 8"]
  | .Div => none
  | .Dup size =>
    some (("    ; " ++ spanDebug span ++ " -- DUP") :: emitCopyUp (-((size : Int) * 8)) size)
  | .Over size_a size_b =>
    some (("    ; " ++ spanDebug span ++ " -- OVER")
      :: emitCopyUp (-(((size_a + size_b : Nat) : Int) * 8)) size_a)
  | .Drop size =>
    some (("    ; " ++ spanDebug span ++ " -- DROP") :: emitDrop size)
  | .Swap size_a size_b =>
    let sa := size_a * 8
    let sb := size_b * 8
    some (("    ; " ++ spanDebug span ++ " -- SWAP")
      :: (((List.range size_a).map (fun i =>
            ["    mov rax, [rcx - " ++ toString (8 * (i + 1)) ++ "]",
             "    mov [rsp - " ++ toString (8 * (i + 1)) ++ "], rax"])).flatten
        ++ ((List.range size_b).map (fun i =>
            ["    mov rax, [rcx - " ++ toString (sa + 8 * (i + 1)) ++ "]",
             "    mov [rcx - " ++ toString (8 * (i + 1)) ++ "], rax"])).flatten
        ++ ((List.range size_a).map (fun i =>
            ["    mov rax, [rsp - " ++ toString (8 * (i + 1)) ++ "]",
             "    mov [rcx - " ++ toString (sb + 8 * (i + 1)) ++ "], rax"])).flatten))

/-! ### Predicates used by the theorems -/

/-- Length of the leading run of ASCII digits. -/
def digitRun : List Char → Nat
  | [] => 0
  | c :: r => if c.isDigit then digitRun r + 1 else 0

/-- Length of the longest run of consecutive ASCII digits anywhere in
the list. -/
def maxDigitRun : List Char → Nat
  | [] => 0
  | c :: r =>
    if c.isDigit then max (digitRun (c :: r)) (maxDigitRun r)
    else maxDigitRun r

/-- The slice of the source designated by a word's span carries the
token's textual form: for symbols and string literals it is exactly the
stored text, for integers it is a nonempty digit run whose parsed value
is the stored integer. -/
def tokenMatches (s : List Char) : Token → Prop
  | .Integer i => s ≠ [] ∧ s.all Char.isDigit = true ∧ (digitsToNat s : Int) = i
  | .Symbol t => t = s
  | .String t => t = s

/-- A word is well-formed with respect to the source: its span is a
valid byte range and the designated slice contains the token's text. -/
def wordOk (src : List Char) (w : Word) : Prop :=
  w.span.start ≤ w.span.stop ∧ w.span.stop ≤ src.length ∧
    tokenMatches (strSlice src w.span.start w.span.stop) w.token

/-- A type is fully resolved with respect to a context: every variable
occurring in it (at any depth) is unbound. -/
inductive ResolvedTy (ctx : Ctx) : Ty → Prop where
  | int : ResolvedTy ctx .Int
  | bool : ResolvedTy ctx .Bool
  | str : ResolvedTy ctx .String
  | var (v : Nat) (h : ctx.get_var v = none) : ResolvedTy ctx (.Var v)
  | multivar (v : Nat) (h : ctx.get_multivar v = none) : ResolvedTy ctx (.MultiVar v)
  | quotation (i o : List Ty) (hi : ∀ t ∈ i, ResolvedTy ctx t)
      (ho : ∀ t ∈ o, ResolvedTy ctx t) : ResolvedTy ctx (.Quotation (.mk i o))

/-- A signature is fully resolved with respect to a context. -/
def ResolvedSig (ctx : Ctx) (s : Signature) : Prop :=
  (∀ t ∈ s.inputs, ResolvedTy ctx t) ∧ (∀ t ∈ s.outputs, ResolvedTy ctx t)

/-- An item is fully resolved with respect to a context: all signatures
carried by `Word` and `Quotation` kinds are resolved, recursively. -/
inductive ResolvedItem (ctx : Ctx) : Item → Prop where
  | integer (i : Int) (sp : Span) : ResolvedItem ctx (.mk (.Integer i) sp)
  | str (s : List Char) (sp : Span) : ResolvedItem ctx (.mk (.String s) sp)
  | word (sig : Signature) (name : List Char) (sp : Span) (h : ResolvedSig ctx sig) :
      ResolvedItem ctx (.mk (.Word sig name) sp)
  | quotation (sig : Signature) (items : List Item) (sp : Span)
      (h : ResolvedSig ctx sig) (hs : ∀ it ∈ items, ResolvedItem ctx it) :
      ResolvedItem ctx (.mk (.Quotation sig items) sp)

/-! ### C1: operand order of the selection word -/

/-- C1, counterexample.  The claim states that `?` consumes its
condition from the top of the stack and that `1 2 true ?` analyzes
successfully with signature `() -> (Int)`.  In the code, the first
element of a builtin's `inputs` list is unified with the popped top of
stack, so for `?` (inputs `[Var 0, Var 0, Bool]`) the condition is the
deepest operand, not the top: `1 2 true ?` is rejected with
`CannotExecSignature` (the top `true` binds `Var 0` to `Bool`, which
then clashes with `2 : Int`). -/
theorem c1_select_counterexample :
    analyzeSrc 64 ("1 2 true ?") =
      some (.error (.CannotExecSignature ⟨.Symbol (("?").toList), ⟨9, 10⟩⟩
        [.Int, .Int, .Bool] (.mk [.Var 0, .Var 0, .Bool] [.Var 0]))) := by
  rfl

/-- C1, amended.  The word `?` consumes its condition from the bottom
of its three operands: the operand layout (bottom to top) is cond,
on_true, on_false.  In particular the program `true 1 2 ?` (pushing the
condition first) analyzes successfully with principal signature
`() -> (Int)`. -/
theorem c1_select_amended :
    analyzeSrc 64 ("true 1 2 ?") =
      some (.ok (.mk [] [.Int],
        [.mk (.Word (.mk [] [.Bool]) (("true").toList)) ⟨0, 4⟩,
         .mk (.Integer 1) ⟨5, 6⟩,
         .mk (.Integer 2) ⟨7, 8⟩,
         .mk (.Word (.mk [.Int, .Int, .Bool] [.Int]) (("?").toList)) ⟨9, 10⟩])) := by
  rfl

/-! ### C2: occurs check -/

/-- C2, counterexample.  The claim states that unifying `Var(v)`
against a type `t` that mentions `v` fails with `CannotExecSignature`
instead of recording the binding.  In fact `State::unify` performs no
occurs check: unifying `Var 0` against the quotation type
`([Var 0] -> [Var 0, Var 0])`, which mentions `Var 0`, succeeds and
records the cyclic binding in the variable map (such a unification is
reachable, e.g. analyzing `[ dup ] dup apply`, after which `resolve`
diverges). -/
theorem c2_occurs_counterexample :
    unify 16 ⟨.Symbol (("apply").toList), ⟨0, 5⟩⟩ (.mk [] []) []
      (.Var 0) (.Quotation (.mk [.Var 0] [.Var 0, .Var 0])) Ctx.new =
    some (.ok ⟨[(0, .Quotation (.mk [.Var 0] [.Var 0, .Var 0]))], [], 0, 0⟩) := by
  rfl

/-- C2, amended.  `State::unify` performs no occurs check: unifying an
unbound `Var v` with any type `t` other than `Var v` itself succeeds
and records the binding `v ↦ t`, even when `t` mentions `v`
transitively; consequently the substitution map can become cyclic and
transitive resolution is not guaranteed to terminate. -/
theorem c2_occurs_amended (fuel : Nat) (w : Word) (sg : Signature) (shot : List Ty)
    (v : Nat) (t : Ty) (ctx : Ctx) (h1 : ctx.get_var v = none) (h2 : t ≠ Ty.Var v) :
    unify (fuel + 1) w sg shot (.Var v) t ctx = some (.ok (ctx.set_var v t)) := by
  cases t with
  | Var u =>
    have hne : ¬ (u = v) := fun h => h2 (by rw [h])
    simp [unify, h1, hne]
  | Int => simp [unify, h1]
  | Bool => simp [unify, h1]
  | String => simp [unify, h1]
  | MultiVar u => simp [unify, h1]
  | Quotation s => simp [unify, h1]

/-- C2, witness for the amended theorem at a concrete cyclic input. -/
theorem c2_occurs_amended_witness :
    (Ty.Quotation (.mk [.Var 0] [.Var 0, .Var 0]) ≠ Ty.Var 0) ∧
    unify 1 ⟨.Symbol (("apply").toList), ⟨0, 5⟩⟩ (.mk [] []) []
      (.Var 0) (.Quotation (.mk [.Var 0] [.Var 0, .Var 0])) Ctx.new =
    some (.ok (Ctx.new.set_var 0 (.Quotation (.mk [.Var 0] [.Var 0, .Var 0])))) :=
  ⟨fun h => Ty.noConfusion h,
   c2_occurs_amended 0 ⟨.Symbol (("apply").toList), ⟨0, 5⟩⟩ (.mk [] []) [] 0
     (.Quotation (.mk [.Var 0] [.Var 0, .Var 0])) Ctx.new rfl
     (fun h => Ty.noConfusion h)⟩

/-! ### C3: the string pool -/

/-- C3, evaluation at the failing input.  The claim (and the spec's
scenario 2) says that for `"hi\n" puts 0 exit` the string pool is the
single string `h`, `i`, newline.  The lexer's `String` token carries
both surrounding quotes (span `0..6` here), but
`Compiler::compile_item_to_block` slices `&s[1..s.len() - 2]`, which
strips the closing quote *and* the character before it; the remaining
text `hi\` ends in a bare backslash which `escape` drops.  The pool is
therefore the two-character string `hi`, with no newline. -/
theorem c3_string_pool_bug :
    poolOfSrc 64 ("\"hi\\n\" puts 0 exit") = some (.ok [("hi").toList]) := by
  rfl

/-! ### C4: bracket balance -/

/-- C4, counterexample.  The claim states that every word stream
containing a `[` with no matching `]` is rejected.  In the code the
quotation loop of `check_word` simply stops at end of input, so `[ 1`
analyzes successfully (with signature
`() -> (Quotation (() -> (Int)))`). -/
theorem c4_balance_counterexample :
    analyzeSrc 64 ("[ 1") =
      some (.ok (.mk [] [.Quotation (.mk [] [.Int])],
        [.mk (.Quotation (.mk [] [.Int]) [.mk (.Integer 1) ⟨2, 3⟩]) ⟨0, 1⟩])) := by
  rfl

/-- C4, amended.  Analysis does not require bracket balance: end of
input closes any open `[` (analyzing `[ 1` produces exactly the same
result as `[ 1 ]`), while a `]` with no matching `[` is rejected — as
an unknown word (`UndefinedWord`), not as a structural error. -/
theorem c4_balance_amended :
    analyzeSrc 64 ("[ 1") = analyzeSrc 64 ("[ 1 ]") ∧
    analyzeSrc 64 ("]") =
      some (.error (.UndefinedWord ⟨.Symbol (("]").toList), ⟨0, 1⟩⟩)) :=
  ⟨rfl, rfl⟩

/-! ### C5: Dup emission -/

/-- C5, evaluation at the failing input.  The claim (and the spec) says
`Dup{size}` copies the top `size` cells, i.e. the cells at
`[rcx - size*8]` through `[rcx - 8]`.  Already at `size = 1` (reachable
from, e.g., `1 dup + 0 exit`) the emitted code reads `[rcx + -16]` —
the cell *below* the top — instead of `[rcx - 8]`:
`Generator::gen_instruction` passes `-(size*8)` as `offset` to
`emit_copy_up`, whose source offsets are `offset - 8*(size-i)`, so the
copied group starts at `[rcx - 2*size*8]` for every size. -/
theorem c5_dup_emission :
    genInstruction [] ⟨0, 1⟩ (.Dup 1) =
      some ["    ; Span \x7b start: 0, end: 1 \x7d -- DUP",
        "    mov rax, [rcx + -16]",
        "    mov [rcx + 0], rax",
        "    add rcx, 8"] := by
  rfl

/-! ### C6: Branch emission -/

/-- C6, evaluation at the failing input.  The claim (and the spec) says
`Branch{size}` writes the `size` selected cells into the `on_true`
slots and then decreases `rcx` by `(size+1)*8`, touching nothing below
the operands.  At `size = 1` the emitted code happens to agree, but at
`size = 2` (reachable from, e.g., `true "x" "y" ?`, which analyzes to
`() -> (String)`) it emits `sub rcx, 32` instead of `sub rcx, 24` and
writes its second result to `[rcx - 48]` — one cell *below* the
5-cell operand region `[rcx - 40] .. [rcx - 8]`, clobbering whatever
the data stack held beneath the operands. -/
theorem c6_branch_emission :
    genInstruction [] ⟨0, 1⟩ (.Branch 2) =
      some ["    ; Span \x7b start: 0, end: 1 \x7d -- BRANCH",
        "    mov rax, [rcx - 40]",
        "    mov rbx, rax",
        "    not rbx",
        "    mov rdx, [rcx - 24]",
        "    and rdx, rax",
        "    mov rsi, [rcx - 8]",
        "    and rsi, rbx",
        "    or rdx, rsi",
        "    mov [rcx - 40], rdx",
        "    mov rdx, [rcx - 32]",
        "    and rdx, rax",
        "    mov rsi, [rcx - 16]",
        "    and rsi, rbx",
        "    or rdx, rsi",
        "    mov [rcx - 48], rdx",
        "    sub rcx, 32"] := by
  rfl

/-! ### C8: row-polymorphic application -/

/-- C8.  The program `1 2 [ + ] apply` analyzes successfully with
principal signature `() -> (Int)`: unifying the quotation's signature
`(Int Int -> Int)` with `apply`'s row-polymorphic operand binds the
input row variable to `(Int, Int)` and the output row variable to
`(Int)`, the two integer literals supply the required stack elements,
and the resolved `apply` item records the fully instantiated signature
`(Quotation (Int Int -> Int), Int, Int) -> (Int)`. -/
theorem c8_apply_signature :
    analyzeSrc 64 ("1 2 [ + ] apply") =
      some (.ok (.mk [] [.Int],
        [.mk (.Integer 1) ⟨0, 1⟩,
         .mk (.Integer 2) ⟨2, 3⟩,
         .mk (.Quotation (.mk [.Int, .Int] [.Int])
           [.mk (.Word (.mk [.Int, .Int] [.Int]) (("+").toList)) ⟨6, 7⟩]) ⟨4, 5⟩,
         .mk (.Word (.mk [.Quotation (.mk [.Int, .Int] [.Int]), .Int, .Int] [.Int])
           (("apply").toList)) ⟨10, 15⟩])) := by
  rfl

/-! ### C7, counterexample -/

/-- C7, counterexample.  The claim states the lexer never fails, for
arbitrary inputs including arbitrarily long digit runs.  A run of
twenty `9`s exceeds `isize::MAX`, so `word.parse().unwrap()` in
`Lexer::word` panics. -/
theorem c7_totality_counterexample :
    lexAll (("99999999999999999999").toList) = none := by
  rfl

/-! ### Lexer lemmas (towards C7) -/

theorem findNonWs_spec : ∀ (l : List Char) i c r, findNonWs l = some (i, c, r) →
    r = l.drop (i + 1) ∧ l.drop i = c :: r ∧ i < l.length := by
  intro l
  induction l with
  | nil => intro i c r h; simp [findNonWs] at h
  | cons c0 rest ih =>
    intro i c r h
    cases hws : isRustWhitespace c0 with
    | false =>
      simp only [findNonWs, hws, Bool.false_eq_true, if_false,
        Option.some.injEq, Prod.mk.injEq] at h
      obtain ⟨h1, h2, h3⟩ := h
      subst h1; subst h2; subst h3
      exact ⟨rfl, rfl, Nat.succ_le_succ (Nat.zero_le _)⟩
    | true =>
      simp only [findNonWs, hws, if_true] at h
      cases hf : findNonWs rest with
      | none => rw [hf] at h; cases h
      | some t =>
        obtain ⟨i1, c1, r1⟩ := t
        rw [hf] at h
        simp only [Option.some.injEq, Prod.mk.injEq] at h
        obtain ⟨h1, h2, h3⟩ := h
        subst h1; subst h2; subst h3
        obtain ⟨e1, e2, e3⟩ := ih i1 c1 r1 hf
        refine ⟨by simpa using e1, by simpa using e2, ?_⟩
        simp only [List.length_cons]
        omega

theorem scanSym_spec : ∀ (l : List Char) n r, scanSym l = (n, r) →
    (r = l.drop n ∧ n = l.length) ∨ (r = l.drop (n + 1) ∧ n + 1 ≤ l.length) := by
  intro l
  induction l with
  | nil =>
    intro n r h
    simp only [scanSym, Prod.mk.injEq] at h
    obtain ⟨h1, h2⟩ := h
    subst h1; subst h2
    exact Or.inl ⟨rfl, rfl⟩
  | cons c0 rest ih =>
    intro n r h
    cases hws : isRustWhitespace c0 with
    | true =>
      simp only [scanSym, hws, if_true, Prod.mk.injEq] at h
      obtain ⟨h1, h2⟩ := h
      subst h1; subst h2
      exact Or.inr ⟨rfl, Nat.succ_le_succ (Nat.zero_le _)⟩
    | false =>
      simp only [scanSym, hws, Bool.false_eq_true, if_false] at h
      rcases hs : scanSym rest with ⟨n1, r1⟩
      rw [hs] at h
      simp only [Prod.mk.injEq] at h
      obtain ⟨h1, h2⟩ := h
      subst h1; subst h2
      rcases ih n1 r1 hs with ⟨e1, e2⟩ | ⟨e1, e2⟩
      · exact Or.inl ⟨by simpa using e1, by simp [e2]⟩
      · refine Or.inr ⟨by simpa using e1, ?_⟩
        simp only [List.length_cons]
        omega

theorem scanStr_spec : ∀ (l : List Char) esc n r, scanStr esc l = (n, r) →
    (r = l.drop n ∧ n = l.length) ∨ (r = l.drop (n + 1) ∧ n + 1 ≤ l.length) := by
  intro l
  induction l with
  | nil =>
    intro esc n r h
    cases esc <;>
      (simp only [scanStr, Prod.mk.injEq] at h
       obtain ⟨h1, h2⟩ := h
       subst h1; subst h2
       exact Or.inl ⟨rfl, rfl⟩)
  | cons c0 rest ih =>
    intro esc n r h
    have cont : ∀ (e : Bool) n1 r1, scanStr e rest = (n1, r1) → n1 + 1 = n → r1 = r →
        (r = (c0 :: rest).drop n ∧ n = (c0 :: rest).length) ∨
        (r = (c0 :: rest).drop (n + 1) ∧ n + 1 ≤ (c0 :: rest).length) := by
      intro e n1 r1 hs h1 h2
      subst h1; subst h2
      rcases ih e n1 r1 hs with ⟨e1, e2⟩ | ⟨e1, e2⟩
      · exact Or.inl ⟨by simpa using e1, by simp [e2]⟩
      · refine Or.inr ⟨by simpa using e1, ?_⟩
        simp only [List.length_cons]
        omega
    cases esc with
    | true =>
      rcases hs : scanStr false rest with ⟨n1, r1⟩
      have key : (n1 + 1, r1) = (n, r) := by rw [← h]; simp [scanStr, hs]
      simp only [Prod.mk.injEq] at key
      exact cont false n1 r1 hs key.1 key.2
    | false =>
      by_cases hbs : c0 = '\\'
      · rcases hs : scanStr true rest with ⟨n1, r1⟩
        have key : (n1 + 1, r1) = (n, r) := by rw [← h]; simp [scanStr, hs, hbs]
        simp only [Prod.mk.injEq] at key
        exact cont true n1 r1 hs key.1 key.2
      · by_cases hq : c0 = '"'
        · have key : ((0 : Nat), rest) = (n, r) := by rw [← h]; simp [scanStr, hbs, hq]
          simp only [Prod.mk.injEq] at key
          obtain ⟨h1, h2⟩ := key
          subst h1; subst h2
          exact Or.inr ⟨rfl, Nat.succ_le_succ (Nat.zero_le _)⟩
        · rcases hs : scanStr false rest with ⟨n1, r1⟩
          have key : (n1 + 1, r1) = (n, r) := by rw [← h]; simp [scanStr, hs, hbs, hq]
          simp only [Prod.mk.injEq] at key
          exact cont false n1 r1 hs key.1 key.2

theorem digitRun_ge_of_take : ∀ (l : List Char) k, k ≤ l.length →
    (l.take k).all Char.isDigit = true → k ≤ digitRun l := by
  intro l
  induction l with
  | nil =>
    intro k hk _
    simp only [List.length_nil, Nat.le_zero] at hk
    subst hk
    exact Nat.zero_le _
  | cons c0 rest ih =>
    intro k hk hall
    cases k with
    | zero => exact Nat.zero_le _
    | succ k1 =>
      simp only [List.take_succ_cons, List.all_cons, Bool.and_eq_true] at hall
      obtain ⟨hc, hrest⟩ := hall
      have h1 : k1 ≤ rest.length := by
        simp only [List.length_cons] at hk; omega
      have := ih k1 h1 hrest
      simp only [digitRun, hc, if_true]
      omega

theorem digitRun_le_maxDigitRun : ∀ (l : List Char), digitRun l ≤ maxDigitRun l := by
  intro l
  cases l with
  | nil => exact Nat.le_refl _
  | cons c0 rest =>
    cases hc : c0.isDigit with
    | true => simp [maxDigitRun, hc]
    | false => simp [digitRun, maxDigitRun, hc]

theorem maxDigitRun_tail_le (c : Char) (r : List Char) :
    maxDigitRun r ≤ maxDigitRun (c :: r) := by
  cases hc : c.isDigit with
  | true => simp [maxDigitRun, hc]
  | false => simp [maxDigitRun, hc]

theorem maxDigitRun_drop_le : ∀ (l : List Char) k, maxDigitRun (l.drop k) ≤ maxDigitRun l := by
  intro l
  induction l with
  | nil => intro k; simp
  | cons c0 rest ih =>
    intro k
    cases k with
    | zero => exact Nat.le_refl _
    | succ k1 =>
      simp only [List.drop_succ_cons]
      exact Nat.le_trans (ih k1) (maxDigitRun_tail_le c0 rest)

theorem isDigit_toNat_le {c : Char} (h : c.isDigit = true) :
    '0'.toNat ≤ c.toNat ∧ c.toNat ≤ '9'.toNat := by
  simp only [Char.isDigit, Bool.and_eq_true, decide_eq_true_eq] at h
  obtain ⟨h1, h2⟩ := h
  exact ⟨h1, h2⟩

theorem digitsToNat_aux_lt : ∀ (l : List Char) (a : Nat), l.all Char.isDigit = true →
    l.foldl (fun a c => 10 * a + (c.toNat - '0'.toNat)) a < (a + 1) * 10 ^ l.length := by
  intro l
  induction l with
  | nil =>
    intro a _
    simp only [List.foldl_nil, List.length_nil, pow_zero, mul_one]
    exact Nat.lt_succ_self a
  | cons c0 rest ih =>
    intro a hall
    simp only [List.all_cons, Bool.and_eq_true] at hall
    obtain ⟨hc, hrest⟩ := hall
    have hd : c0.toNat - '0'.toNat ≤ 9 := by
      have h09 := isDigit_toNat_le hc
      have e0 : '0'.toNat = 48 := rfl
      have e9 : '9'.toNat = 57 := rfl
      omega
    have step := ih (10 * a + (c0.toNat - '0'.toNat)) hrest
    simp only [List.foldl_cons, List.length_cons]
    have h10 : (10 * a + (c0.toNat - '0'.toNat) + 1) * 10 ^ rest.length ≤
        (a + 1) * 10 ^ (rest.length + 1) := by
      have : (10 * a + (c0.toNat - '0'.toNat) + 1) ≤ (a + 1) * 10 := by omega
      calc (10 * a + (c0.toNat - '0'.toNat) + 1) * 10 ^ rest.length
          ≤ ((a + 1) * 10) * 10 ^ rest.length := Nat.mul_le_mul_right _ this
        _ = (a + 1) * 10 ^ (rest.length + 1) := by ring
    exact Nat.lt_of_lt_of_le step h10

theorem digitsToNat_lt (l : List Char) (h : l.all Char.isDigit = true) :
    digitsToNat l < 10 ^ l.length := by
  have := digitsToNat_aux_lt l 0 h
  simpa [digitsToNat] using this

theorem lexWord_spec (src : List Char) (hdig : maxDigitRun src ≤ 18)
    (pos : Nat) (rest : List Char) (hlen : pos + rest.length = src.length)
    (hdrop : rest = src.drop pos) :
    lexWord src pos rest = LexStep.eof ∨
    ∃ w pos1 rest1, lexWord src pos rest = LexStep.word w pos1 rest1 ∧
      wordOk src w ∧ pos1 + rest1.length = src.length ∧ rest1 = src.drop pos1 ∧
      rest1.length < rest.length := by
  cases hf : findNonWs rest with
  | none =>
    left
    simp [lexWord, hf]
  | some t =>
    obtain ⟨i, c, rest1⟩ := t
    obtain ⟨hr1, hdi, hilt⟩ := findNonWs_spec rest i c rest1 hf
    right
    have hsrc_drop : src.drop (pos + i) = c :: rest1 := by
      rw [hdrop] at hdi
      rw [List.drop_drop] at hdi
      exact hdi
    have hlen1 : pos + i + 1 + rest1.length = src.length := by
      have hl := congrArg List.length hsrc_drop
      simp only [List.length_drop, List.length_cons] at hl
      omega
    have hrestlen : rest.length = i + 1 + rest1.length := by omega
    by_cases hc : c = '"'
    · -- string-literal branch
      rcases hscan : scanStr false rest1 with ⟨n, rest2⟩
      have hk : ∃ k, rest2 = rest1.drop k ∧ k ≤ rest1.length := by
        rcases scanStr_spec rest1 false n rest2 hscan with ⟨e1, e2⟩ | ⟨e1, e2⟩
        · exact ⟨n, e1, by omega⟩
        · exact ⟨n + 1, e1, e2⟩
      obtain ⟨k, hk1, hk2⟩ := hk
      have hr2len : rest2.length = rest1.length - k := by
        rw [hk1]; simp [List.length_drop]
      have hr2drop : rest2 = src.drop (pos + i + 1 + k) := by
        rw [hk1, hr1, hdrop]
        rw [List.drop_drop, List.drop_drop]
        rw [show pos + (i + 1 + k) = pos + i + 1 + k from by omega]
      have hpos1 : pos + (rest.length - rest2.length) = pos + i + 1 + k := by omega
      have hres : lexWord src pos rest = LexStep.word
          ⟨Token.String (strSlice src (pos + i) (min (pos + i + n + 2) src.length)),
            ⟨pos + i, min (pos + i + n + 2) src.length⟩⟩
          (pos + (rest.length - rest2.length)) rest2 := by
        simp [lexWord, hf, hc, hscan]
      refine ⟨_, _, _, hres, ⟨?_, ?_, ?_⟩, ?_, ?_, ?_⟩
      · dsimp only
        exact Nat.le_min.mpr ⟨by omega, by omega⟩
      · dsimp only
        exact Nat.min_le_right _ _
      · exact rfl
      · omega
      · rw [hpos1]; exact hr2drop
      · omega
    · -- symbol / integer branch
      rcases hscan : scanSym rest1 with ⟨n, rest2⟩
      have hk : ∃ k, rest2 = rest1.drop k ∧ k ≤ rest1.length ∧ n ≤ k := by
        rcases scanSym_spec rest1 n rest2 hscan with ⟨e1, e2⟩ | ⟨e1, e2⟩
        · exact ⟨n, e1, by omega, Nat.le_refl n⟩
        · exact ⟨n + 1, e1, e2, by omega⟩
      obtain ⟨k, hk1, hk2, hk3⟩ := hk
      have hnle : n ≤ rest1.length := by omega
      have hr2len : rest2.length = rest1.length - k := by
        rw [hk1]; simp [List.length_drop]
      have hr2drop : rest2 = src.drop (pos + i + 1 + k) := by
        rw [hk1, hr1, hdrop]
        rw [List.drop_drop, List.drop_drop]
        rw [show pos + (i + 1 + k) = pos + i + 1 + k from by omega]
      have hpos1 : pos + (rest.length - rest2.length) = pos + i + 1 + k := by omega
      have hw : strSlice src (pos + i) (pos + i + 1 + n) = c :: rest1.take n := by
        unfold strSlice
        rw [hsrc_drop]
        rw [show pos + i + 1 + n - (pos + i) = n + 1 from by omega]
        exact List.take_succ_cons ..
      have hwlen : (strSlice src (pos + i) (pos + i + 1 + n)).length = n + 1 := by
        rw [hw]
        simp only [List.length_cons, List.length_take]
        omega
      by_cases hall : (strSlice src (pos + i) (pos + i + 1 + n)).all Char.isDigit = true
      · -- integer token
        have hrun : n + 1 ≤ digitRun (src.drop (pos + i)) := by
          apply digitRun_ge_of_take
          · simp only [List.length_drop]; omega
          · have heq : (src.drop (pos + i)).take (n + 1) =
                strSlice src (pos + i) (pos + i + 1 + n) := by
              unfold strSlice
              rw [show pos + i + 1 + n - (pos + i) = n + 1 from by omega]
            rw [heq]
            exact hall
        have hbound : n + 1 ≤ 18 := by
          have h1 := digitRun_le_maxDigitRun (src.drop (pos + i))
          have h2 := maxDigitRun_drop_le src (pos + i)
          omega
        have hvlt : digitsToNat (strSlice src (pos + i) (pos + i + 1 + n)) < 10 ^ (n + 1) := by
          have hq := digitsToNat_lt _ hall
          rw [hwlen] at hq
          exact hq
        have hvle : digitsToNat (strSlice src (pos + i) (pos + i + 1 + n)) ≤ isizeMax := by
          have hp : (10 : Nat) ^ (n + 1) ≤ 10 ^ 18 :=
            Nat.pow_le_pow_right (by norm_num) hbound
          have hm : (10 : Nat) ^ 18 ≤ isizeMax := by norm_num [isizeMax]
          omega
        have hres : lexWord src pos rest = LexStep.word
            ⟨Token.Integer (Int.ofNat (digitsToNat (strSlice src (pos + i) (pos + i + 1 + n)))),
              ⟨pos + i, pos + i + 1 + n⟩⟩
            (pos + (rest.length - rest2.length)) rest2 := by
          simp [lexWord, hf, hc, hscan, hall, hvle]
        refine ⟨_, _, _, hres, ⟨?_, ?_, ?_, ?_, ?_⟩, ?_, ?_, ?_⟩
        · dsimp only; omega
        · dsimp only; omega
        · intro hnil
          have hn0 := congrArg List.length hnil
          rw [hwlen] at hn0
          simp at hn0
        · exact hall
        · exact rfl
        · omega
        · rw [hpos1]; exact hr2drop
        · omega
      · -- symbol token
        have hres : lexWord src pos rest = LexStep.word
            ⟨Token.Symbol (strSlice src (pos + i) (pos + i + 1 + n)),
              ⟨pos + i, pos + i + 1 + n⟩⟩
            (pos + (rest.length - rest2.length)) rest2 := by
          simp [lexWord, hf, hc, hscan, hall]
        refine ⟨_, _, _, hres, ⟨?_, ?_, ?_⟩, ?_, ?_, ?_⟩
        · dsimp only; omega
        · dsimp only; omega
        · exact rfl
        · omega
        · rw [hpos1]; exact hr2drop
        · omega

theorem lexFrom_total (src : List Char) (hdig : maxDigitRun src ≤ 18) :
    ∀ fuel pos rest, pos + rest.length = src.length → rest = src.drop pos →
      rest.length < fuel →
      ∃ ws, lexFrom src fuel pos rest = some ws ∧ ∀ w ∈ ws, wordOk src w := by
  intro fuel
  induction fuel with
  | zero => intro pos rest _ _ h; omega
  | succ f ih =>
    intro pos rest hlen hdrop hf
    rcases lexWord_spec src hdig pos rest hlen hdrop with
      heof | ⟨w, pos1, rest1, hres, hok, hlen1, hdrop1, hlt⟩
    · exact ⟨[], by simp [lexFrom, heof], by simp⟩
    · obtain ⟨ws, hws, hall⟩ := ih pos1 rest1 hlen1 hdrop1 (by omega)
      refine ⟨w :: ws, ?_, ?_⟩
      · simp [lexFrom, hres, hws]
      · intro w1 hw1
        rcases List.mem_cons.mp hw1 with h | h
        · subst h; exact hok
        · exact hall w1 h

/-! ### C7, amended -/

/-- C7, amended.  The lexer is total on ASCII sources in which no 19
consecutive characters are all digits (the code identifies byte and
character positions only for single-byte characters, and parses digit
runs with `parse::<isize>().unwrap()`, which panics beyond
`isize::MAX`; every run of at most 18 digits fits).  On such sources
the lexer produces a finite sequence of words without failing, and
every produced word's span is a valid byte range of the source whose
slice contains the token's textual form. -/
theorem c7_lexer_totality_amended (src : List Char)
    (_hascii : src.all (fun c => c.toNat < 128) = true)
    (hdig : maxDigitRun src ≤ 18) :
    ∃ ws, lexAll src = some ws ∧ ∀ w ∈ ws, wordOk src w := by
  unfold lexAll
  exact lexFrom_total src hdig (src.length + 1) 0 src (by simp) (by simp) (by omega)

/-- C7, witness for the amended theorem at a concrete source. -/
theorem c7_lexer_totality_amended_witness :
    ((("dup 12 [").toList.all (fun c => c.toNat < 128)) = true) ∧
    maxDigitRun (("dup 12 [").toList) ≤ 18 ∧
    (∃ ws, lexAll (("dup 12 [").toList) = some ws ∧
      ∀ w ∈ ws, wordOk (("dup 12 [").toList) w) :=
  ⟨by decide, by decide, c7_lexer_totality_amended _ (by decide) (by decide)⟩

/-! ### Resolution lemmas (towards C9) -/

theorem resolveType_resolved : ∀ fuel,
    (∀ ctx t l, resolveType fuel ctx t = some l → ∀ x ∈ l, ResolvedTy ctx x) ∧
    (∀ ctx ts l, resolveTypes fuel ctx ts = some l → ∀ x ∈ l, ResolvedTy ctx x) ∧
    (∀ ctx s s1, resolveSignature fuel ctx s = some s1 → ResolvedSig ctx s1) := by
  intro fuel
  induction fuel with
  | zero =>
    refine ⟨?_, ?_, ?_⟩ <;> (intro ctx a b h; cases h)
  | succ f ih =>
    obtain ⟨ih1, ih2, ih3⟩ := ih
    refine ⟨?_, ?_, ?_⟩
    · intro ctx t l h
      cases t with
      | Int =>
        simp only [resolveType, Option.some.injEq] at h
        subst h
        intro x hx
        simp only [List.mem_singleton] at hx
        subst hx
        exact .int
      | Bool =>
        simp only [resolveType, Option.some.injEq] at h
        subst h
        intro x hx
        simp only [List.mem_singleton] at hx
        subst hx
        exact .bool
      | String =>
        simp only [resolveType, Option.some.injEq] at h
        subst h
        intro x hx
        simp only [List.mem_singleton] at hx
        subst hx
        exact .str
      | Var v =>
        cases hv : ctx.get_var v with
        | none =>
          simp only [resolveType, hv, Option.some.injEq] at h
          subst h
          intro x hx
          simp only [List.mem_singleton] at hx
          subst hx
          exact .var v hv
        | some b =>
          simp only [resolveType, hv] at h
          cases hb : resolveType f ctx b with
          | none => rw [hb] at h; cases h
          | some bl =>
            rw [hb] at h
            cases bl with
            | nil => cases h
            | cons x0 bl1 =>
              simp only [Option.some.injEq] at h
              subst h
              intro x hx
              simp only [List.mem_singleton] at hx
              subst hx
              exact ih1 ctx b (x :: bl1) hb x (List.mem_cons_self x bl1)
      | MultiVar v =>
        cases hv : ctx.get_multivar v with
        | none =>
          simp only [resolveType, hv, Option.some.injEq] at h
          subst h
          intro x hx
          simp only [List.mem_singleton] at hx
          subst hx
          exact .multivar v hv
        | some bs =>
          simp only [resolveType, hv] at h
          cases hb : resolveTypes f ctx bs with
          | none => rw [hb] at h; cases h
          | some bl =>
            rw [hb] at h
            simp only [Option.some.injEq] at h
            subst h
            exact ih2 ctx bs _ hb
      | Quotation sig =>
        cases hs : resolveSignature f ctx sig with
        | none => simp only [resolveType, hs] at h; cases h
        | some s1 =>
          simp only [resolveType, hs, Option.some.injEq] at h
          subst h
          intro x hx
          simp only [List.mem_singleton] at hx
          subst hx
          have hr := ih3 ctx sig s1 hs
          obtain ⟨i, o⟩ := s1
          exact .quotation i o hr.1 hr.2
    · intro ctx ts l h
      cases ts with
      | nil =>
        simp only [resolveTypes, Option.some.injEq] at h
        subst h
        intro x hx
        cases hx
      | cons t rest =>
        simp only [resolveTypes] at h
        cases h1 : resolveType f ctx t with
        | none => rw [h1] at h; cases h
        | some l1 =>
          rw [h1] at h
          cases h2 : resolveTypes f ctx rest with
          | none => rw [h2] at h; cases h
          | some l2 =>
            rw [h2] at h
            simp only [Option.some.injEq] at h
            subst h
            intro x hx
            rcases List.mem_append.mp hx with hm | hm
            · exact ih1 ctx t l1 h1 x hm
            · exact ih2 ctx rest l2 h2 x hm
    · intro ctx s s1 h
      obtain ⟨si, so⟩ := s
      simp only [resolveSignature, Signature.inputs, Signature.outputs] at h
      cases h1 : resolveTypes f ctx si with
      | none => rw [h1] at h; cases h
      | some li =>
        rw [h1] at h
        cases h2 : resolveTypes f ctx so with
        | none => rw [h2] at h; cases h
        | some lo =>
          rw [h2] at h
          simp only [Option.some.injEq] at h
          subst h
          exact ⟨ih2 ctx si li h1, ih2 ctx so lo h2⟩

theorem resolveItem_resolved : ∀ fuel,
    (∀ ctx it it1, resolveItem fuel ctx it = some it1 → ResolvedItem ctx it1) ∧
    (∀ ctx its its1, resolveItems fuel ctx its = some its1 → ∀ x ∈ its1, ResolvedItem ctx x) := by
  intro fuel
  induction fuel with
  | zero => refine ⟨?_, ?_⟩ <;> (intro ctx a b h; cases h)
  | succ f ih =>
    obtain ⟨ih1, ih2⟩ := ih
    refine ⟨?_, ?_⟩
    · intro ctx it it1 h
      obtain ⟨kind, span⟩ := it
      cases kind with
      | Integer i =>
        simp only [resolveItem, Option.some.injEq] at h
        subst h
        exact .integer i span
      | String s =>
        simp only [resolveItem, Option.some.injEq] at h
        subst h
        exact .str s span
      | Word sig w =>
        simp only [resolveItem] at h
        cases hs : resolveSignature f ctx sig with
        | none => rw [hs] at h; cases h
        | some s1 =>
          rw [hs] at h
          simp only [Option.some.injEq] at h
          subst h
          exact .word s1 w span ((resolveType_resolved f).2.2 ctx sig s1 hs)
      | Quotation sig items =>
        simp only [resolveItem] at h
        cases hi : resolveItems f ctx items with
        | none => rw [hi] at h; cases h
        | some items1 =>
          rw [hi] at h
          cases hs : resolveSignature f ctx sig with
          | none => rw [hs] at h; cases h
          | some s1 =>
            rw [hs] at h
            simp only [Option.some.injEq] at h
            subst h
            exact .quotation s1 items1 span
              ((resolveType_resolved f).2.2 ctx sig s1 hs)
              (ih2 ctx items items1 hi)
    · intro ctx its its1 h
      cases its with
      | nil =>
        simp only [resolveItems, Option.some.injEq] at h
        subst h
        intro x hx
        cases hx
      | cons it rest =>
        simp only [resolveItems] at h
        cases h1 : resolveItem f ctx it with
        | none => rw [h1] at h; cases h
        | some it1 =>
          rw [h1] at h
          cases h2 : resolveItems f ctx rest with
          | none => rw [h2] at h; cases h
          | some rest1 =>
            rw [h2] at h
            simp only [Option.some.injEq] at h
            subst h
            intro x hx
            rcases List.mem_cons.mp hx with hm | hm
            · subst hm; exact ih1 ctx it x h1
            · exact ih2 ctx rest rest1 h2 x hm

theorem resolveTypes_of_forall (ctx : Ctx) : ∀ (ts : List Ty),
    (∀ t ∈ ts, ∃ n, ∀ f, n ≤ f → resolveType f ctx t = some [t]) →
    ∃ n, ∀ f, n ≤ f → resolveTypes f ctx ts = some ts := by
  intro ts
  induction ts with
  | nil =>
    intro _
    refine ⟨1, fun f hf => ?_⟩
    cases f with
    | zero => omega
    | succ f1 => simp [resolveTypes]
  | cons t rest ih =>
    intro h
    obtain ⟨n1, h1⟩ := h t (List.mem_cons_self t rest)
    obtain ⟨n2, h2⟩ := ih (fun x hx => h x (List.mem_cons_of_mem t hx))
    refine ⟨max n1 n2 + 1, fun f hf => ?_⟩
    cases f with
    | zero => omega
    | succ f1 =>
      have e1 := h1 f1 (by omega)
      have e2 := h2 f1 (by omega)
      simp [resolveTypes, e1, e2]

theorem resolved_resolveType (ctx : Ctx) :
    ∀ t, ResolvedTy ctx t → ∃ n, ∀ f, n ≤ f → resolveType f ctx t = some [t] := by
  intro t h
  induction h with
  | int =>
    refine ⟨1, fun f hf => ?_⟩
    cases f with
    | zero => omega
    | succ f1 => simp [resolveType]
  | bool =>
    refine ⟨1, fun f hf => ?_⟩
    cases f with
    | zero => omega
    | succ f1 => simp [resolveType]
  | str =>
    refine ⟨1, fun f hf => ?_⟩
    cases f with
    | zero => omega
    | succ f1 => simp [resolveType]
  | var v hv =>
    refine ⟨1, fun f hf => ?_⟩
    cases f with
    | zero => omega
    | succ f1 => simp [resolveType, hv]
  | multivar v hv =>
    refine ⟨1, fun f hf => ?_⟩
    cases f with
    | zero => omega
    | succ f1 => simp [resolveType, hv]
  | quotation i o hi ho ihi iho =>
    obtain ⟨ni, hi1⟩ := resolveTypes_of_forall ctx i ihi
    obtain ⟨no, ho1⟩ := resolveTypes_of_forall ctx o iho
    refine ⟨max ni no + 2, fun f hf => ?_⟩
    cases f with
    | zero => omega
    | succ f1 =>
      cases f1 with
      | zero => omega
      | succ f2 =>
        have e1 := hi1 f2 (by omega)
        have e2 := ho1 f2 (by omega)
        simp [resolveType, resolveSignature, Signature.inputs, Signature.outputs, e1, e2]

theorem resolved_resolveSignature (ctx : Ctx) (s : Signature) (h : ResolvedSig ctx s) :
    ∃ n, ∀ f, n ≤ f → resolveSignature f ctx s = some s := by
  obtain ⟨si, so⟩ := s
  obtain ⟨hi, ho⟩ := h
  obtain ⟨ni, hi1⟩ := resolveTypes_of_forall ctx si
    (fun t ht => resolved_resolveType ctx t (hi t ht))
  obtain ⟨no, ho1⟩ := resolveTypes_of_forall ctx so
    (fun t ht => resolved_resolveType ctx t (ho t ht))
  refine ⟨max ni no + 1, fun f hf => ?_⟩
  cases f with
  | zero => omega
  | succ f1 =>
    have e1 := hi1 f1 (by omega)
    have e2 := ho1 f1 (by omega)
    simp [resolveSignature, Signature.inputs, Signature.outputs, e1, e2]

theorem resolveItems_of_forall (ctx : Ctx) : ∀ (its : List Item),
    (∀ it ∈ its, ∃ n, ∀ f, n ≤ f → resolveItem f ctx it = some it) →
    ∃ n, ∀ f, n ≤ f → resolveItems f ctx its = some its := by
  intro its
  induction its with
  | nil =>
    intro _
    refine ⟨1, fun f hf => ?_⟩
    cases f with
    | zero => omega
    | succ f1 => simp [resolveItems]
  | cons it rest ih =>
    intro h
    obtain ⟨n1, h1⟩ := h it (List.mem_cons_self it rest)
    obtain ⟨n2, h2⟩ := ih (fun x hx => h x (List.mem_cons_of_mem it hx))
    refine ⟨max n1 n2 + 1, fun f hf => ?_⟩
    cases f with
    | zero => omega
    | succ f1 =>
      have e1 := h1 f1 (by omega)
      have e2 := h2 f1 (by omega)
      simp [resolveItems, e1, e2]

theorem resolved_resolveItem (ctx : Ctx) :
    ∀ it, ResolvedItem ctx it → ∃ n, ∀ f, n ≤ f → resolveItem f ctx it = some it := by
  intro it h
  induction h with
  | integer i sp =>
    refine ⟨1, fun f hf => ?_⟩
    cases f with
    | zero => omega
    | succ f1 => simp [resolveItem]
  | str s sp =>
    refine ⟨1, fun f hf => ?_⟩
    cases f with
    | zero => omega
    | succ f1 => simp [resolveItem]
  | word sig name sp hsig =>
    obtain ⟨n1, h1⟩ := resolved_resolveSignature ctx sig hsig
    refine ⟨n1 + 1, fun f hf => ?_⟩
    cases f with
    | zero => omega
    | succ f1 =>
      have e1 := h1 f1 (by omega)
      simp [resolveItem, e1]
  | quotation sig items sp hsig hs ihs =>
    obtain ⟨n1, h1⟩ := resolved_resolveSignature ctx sig hsig
    obtain ⟨n2, h2⟩ := resolveItems_of_forall ctx items ihs
    refine ⟨max n1 n2 + 1, fun f hf => ?_⟩
    cases f with
    | zero => omega
    | succ f1 =>
      have e1 := h1 f1 (by omega)
      have e2 := h2 f1 (by omega)
      simp [resolveItem, e1, e2]

/-! ### C9: idempotence of resolution -/

/-- C9.  For every signature in the output of a successful analysis —
the program signature and the resolved signatures carried by the
returned items — resolving once more through the final `Context`
yields the same value: every output of `resolve_all` only contains
variables that are unbound in the final context, so a second
substitution pass is the identity (for any sufficiently large fuel,
i.e. whenever the second, terminating resolution pass of the Rust code
is modelled). -/
theorem c9_resolution_idempotent (fuel : Nat) (words : List Word)
    (sig : Signature) (items : List Item) (ctx : Ctx)
    (h : analyzeFull fuel words = some (.ok (sig, items, ctx))) :
    ∃ n, ∀ f, n ≤ f →
      resolveSignature f ctx sig = some sig ∧ resolveItems f ctx items = some items := by
  unfold analyzeFull at h
  cases hl : analyzeLoop fuel words St.new Ctx.new with
  | none => rw [hl] at h; cases h
  | some r =>
    rw [hl] at h
    cases r with
    | error e => cases h
    | ok p =>
      obtain ⟨st, ctx0⟩ := p
      simp only at h
      cases hr : resolveAll fuel st ctx0 with
      | none => rw [hr] at h; cases h
      | some q =>
        obtain ⟨s1, its1⟩ := q
        rw [hr] at h
        simp only [Option.some.injEq, Except.ok.injEq, Prod.mk.injEq] at h
        obtain ⟨hs, hits, hctx⟩ := h
        subst hs; subst hits; subst hctx
        unfold resolveAll at hr
        cases h1 : resolveSignature fuel ctx0 st.signature with
        | none => rw [h1] at hr; cases hr
        | some s2 =>
          rw [h1] at hr
          cases h2 : resolveItems fuel ctx0 st.items with
          | none => rw [h2] at hr; cases hr
          | some its2 =>
            rw [h2] at hr
            simp only [Option.some.injEq, Prod.mk.injEq] at hr
            obtain ⟨e1, e2⟩ := hr
            subst e1; subst e2
            have hrs := (resolveType_resolved fuel).2.2 _ _ _ h1
            have hri := (resolveItem_resolved fuel).2 _ _ _ h2
            obtain ⟨n1, hb1⟩ := resolved_resolveSignature _ _ hrs
            obtain ⟨n2, hb2⟩ := resolveItems_of_forall _ _
              (fun it hit => resolved_resolveItem _ it (hri it hit))
            exact ⟨max n1 n2, fun f hf => ⟨hb1 f (by omega), hb2 f (by omega)⟩⟩

/-- C9, witness at a concrete program (`1`). -/
theorem c9_resolution_idempotent_witness :
    ∃ n, ∀ f, n ≤ f →
      resolveSignature f ⟨[], [], 0, 0⟩ (.mk [] [.Int]) = some (.mk [] [.Int]) ∧
      resolveItems f ⟨[], [], 0, 0⟩ [.mk (.Integer 1) ⟨0, 1⟩] =
        some [.mk (.Integer 1) ⟨0, 1⟩] :=
  c9_resolution_idempotent 16 [⟨.Integer 1, ⟨0, 1⟩⟩] (.mk [] [.Int])
    [.mk (.Integer 1) ⟨0, 1⟩] ⟨[], [], 0, 0⟩ rfl

/-! ### Compiler lemmas (towards C10) -/

theorem addInstruction_bound (c c1 : CompilerSt) (label : Label)
    (inst : Instruction) (span : Span)
    (h : addInstruction c label inst span = some c1)
    (hInv : ∀ p ∈ c.procs, ∀ x ∈ p.code, ∀ i, x.2 = Instruction.PushString i →
      i < c.string_literals.length)
    (hinst : ∀ i, inst = Instruction.PushString i → i < c.string_literals.length) :
    (∀ p ∈ c1.procs, ∀ x ∈ p.code, ∀ i, x.2 = Instruction.PushString i →
      i < c1.string_literals.length) ∧ c1.string_literals = c.string_literals := by
  unfold addInstruction at h
  cases hg : c.procs.get? label.id with
  | none => rw [hg] at h; cases h
  | some p0 =>
    rw [hg] at h
    simp only [Option.some.injEq] at h
    subst h
    refine ⟨?_, rfl⟩
    intro p hp x hx i hi
    rcases List.mem_or_eq_of_mem_set hp with hmem | heq
    · exact hInv p hmem x hx i hi
    · subst heq
      simp only at hx
      rcases List.mem_append.mp hx with hold | hnew
      · exact hInv p0 (List.get?_mem hg) x hold i hi
      · simp only [List.mem_singleton] at hnew
        subst hnew
        exact hinst i hi

theorem compileItem_bound : ∀ fuel,
    (∀ it label c c1, compileItem fuel it label c = some c1 →
      (∀ p ∈ c.procs, ∀ x ∈ p.code, ∀ i, x.2 = Instruction.PushString i →
        i < c.string_literals.length) →
      (∀ p ∈ c1.procs, ∀ x ∈ p.code, ∀ i, x.2 = Instruction.PushString i →
        i < c1.string_literals.length) ∧
        c.string_literals.length ≤ c1.string_literals.length) ∧
    (∀ its label c c1, compileItems fuel its label c = some c1 →
      (∀ p ∈ c.procs, ∀ x ∈ p.code, ∀ i, x.2 = Instruction.PushString i →
        i < c.string_literals.length) →
      (∀ p ∈ c1.procs, ∀ x ∈ p.code, ∀ i, x.2 = Instruction.PushString i →
        i < c1.string_literals.length) ∧
        c.string_literals.length ≤ c1.string_literals.length) := by
  intro fuel
  induction fuel with
  | zero => refine ⟨?_, ?_⟩ <;> (intro a b c d h; cases h)
  | succ f ih =>
    obtain ⟨ih1, ih2⟩ := ih
    refine ⟨?_, ?_⟩
    · intro it label c c1 h hInv
      obtain ⟨kind, span⟩ := it
      have vac : ∀ (inst : Instruction),
          (∀ i, inst = Instruction.PushString i → False) →
          addInstruction c label inst span = some c1 →
          (∀ p ∈ c1.procs, ∀ x ∈ p.code, ∀ i, x.2 = Instruction.PushString i →
            i < c1.string_literals.length) ∧
            c.string_literals.length ≤ c1.string_literals.length := by
        intro inst hv hh
        rcases addInstruction_bound c c1 label inst span hh hInv
          (fun i hi => absurd hi (hv i)) with ⟨a, b⟩
        exact ⟨a, by rw [b]⟩
      cases kind with
      | Integer i =>
        simp only [compileItem] at h
        exact vac _ (fun i hi => by cases hi) h
      | String s =>
        simp only [compileItem] at h
        by_cases hlen : s.length < 3
        · rw [if_pos hlen] at h; cases h
        · rw [if_neg hlen] at h
          have hInvMid : ∀ p ∈ c.procs, ∀ x ∈ p.code, ∀ i,
              x.2 = Instruction.PushString i →
              i < (c.string_literals ++ [escape ((s.drop 1).take (s.length - 3))]).length := by
            intro p hp x hx i hi
            have hx2 := hInv p hp x hx i hi
            simp only [List.length_append, List.length_singleton]
            omega
          have hSide : ∀ i,
              Instruction.PushString c.string_literals.length = Instruction.PushString i →
              i < (c.string_literals ++ [escape ((s.drop 1).take (s.length - 3))]).length := by
            intro i hi
            injection hi with hival
            subst hival
            simp only [List.length_append, List.length_singleton]
            omega
          rcases addInstruction_bound
              ⟨c.procs, c.string_literals ++ [escape ((s.drop 1).take (s.length - 3))]⟩
              c1 label (Instruction.PushString c.string_literals.length) span h hInvMid hSide
            with ⟨h1, h2⟩
          refine ⟨h1, ?_⟩
          rw [h2]
          show c.string_literals.length ≤
            (c.string_literals ++ [escape ((s.drop 1).take (s.length - 3))]).length
          simp only [List.length_append, List.length_singleton]
          omega
      | Quotation sig items =>
        simp only [compileItem] at h
        rcases hq : newProc c none with ⟨qlabel, cq⟩
        rw [hq] at h
        have e := hq
        unfold newProc at e
        simp only [Prod.mk.injEq] at e
        obtain ⟨e1, e2⟩ := e
        subst e1
        subst e2
        have hInvQ : ∀ p ∈ (c.procs ++ [⟨⟨c.procs.length, none⟩, []⟩]), ∀ x ∈ p.code, ∀ i,
            x.2 = Instruction.PushString i → i < c.string_literals.length := by
          intro p hp x hx i hi
          rcases List.mem_append.mp hp with hm | hm
          · exact hInv p hm x hx i hi
          · simp only [List.mem_singleton] at hm
            subst hm
            exact absurd hx (List.not_mem_nil x)
        cases hc2 : compileItems f items ⟨c.procs.length, none⟩
            ⟨c.procs ++ [⟨⟨c.procs.length, none⟩, []⟩], c.string_literals⟩ with
        | none => rw [hc2] at h; cases h
        | some cmid =>
          rw [hc2] at h
          rcases ih2 items ⟨c.procs.length, none⟩ _ cmid hc2 hInvQ with ⟨hInvMid, hlenMid⟩
          rcases addInstruction_bound cmid c1 label _ span h hInvMid
            (fun i hi => by cases hi) with ⟨h1, h2⟩
          refine ⟨h1, ?_⟩
          rw [h2]
          exact hlenMid
      | Word sig name =>
        simp only [compileItem] at h
        by_cases n1 : name = ("true").toList
        · rw [if_pos n1] at h; exact vac _ (fun i hi => by cases hi) h
        rw [if_neg n1] at h
        by_cases n2 : name = ("false").toList
        · rw [if_pos n2] at h; exact vac _ (fun i hi => by cases hi) h
        rw [if_neg n2] at h
        by_cases n3 : name = ("+").toList
        · rw [if_pos n3] at h; exact vac _ (fun i hi => by cases hi) h
        rw [if_neg n3] at h
        by_cases n4 : name = ("-").toList
        · rw [if_pos n4] at h; exact vac _ (fun i hi => by cases hi) h
        rw [if_neg n4] at h
        by_cases n5 : name = ("*").toList
        · rw [if_pos n5] at h; exact vac _ (fun i hi => by cases hi) h
        rw [if_neg n5] at h
        by_cases n6 : name = ("/").toList
        · rw [if_pos n6] at h; exact vac _ (fun i hi => by cases hi) h
        rw [if_neg n6] at h
        by_cases n7 : name = ("exit").toList
        · rw [if_pos n7] at h; exact vac _ (fun i hi => by cases hi) h
        rw [if_neg n7] at h
        by_cases n8 : name = ("puts").toList
        · rw [if_pos n8] at h; exact vac _ (fun i hi => by cases hi) h
        rw [if_neg n8] at h
        by_cases n9 : name = ("dup").toList
        · rw [if_pos n9] at h
          generalize hg : sig.inputs.get? 0 = og at h
          cases og with
          | none => exact Option.noConfusion h
          | some t =>
            simp only [] at h
            generalize hs : t.size = os at h
            cases os with
            | none => exact Option.noConfusion h
            | some sz => exact vac _ (fun i hi => by cases hi) h
        rw [if_neg n9] at h
        by_cases n10 : name = ("drop").toList
        · rw [if_pos n10] at h
          generalize hg : sig.inputs.get? 0 = og at h
          cases og with
          | none => exact Option.noConfusion h
          | some t =>
            simp only [] at h
            generalize hs : t.size = os at h
            cases os with
            | none => exact Option.noConfusion h
            | some sz => exact vac _ (fun i hi => by cases hi) h
        rw [if_neg n10] at h
        by_cases n11 : name = ("swap").toList
        · rw [if_pos n11] at h
          generalize hg0 : sig.inputs.get? 0 = og0 at h
          generalize hg1 : sig.inputs.get? 1 = og1 at h
          cases og0 with
          | none => exact Option.noConfusion h
          | some t0 =>
            cases og1 with
            | none => exact Option.noConfusion h
            | some t1 =>
              simp only [] at h
              generalize hs0 : t0.size = os0 at h
              generalize hs1 : t1.size = os1 at h
              cases os0 with
              | none => exact Option.noConfusion h
              | some sa =>
                cases os1 with
                | none => exact Option.noConfusion h
                | some sb => exact vac _ (fun i hi => by cases hi) h
        rw [if_neg n11] at h
        by_cases n12 : name = ("over").toList
        · rw [if_pos n12] at h
          generalize hg0 : sig.inputs.get? 0 = og0 at h
          generalize hg1 : sig.inputs.get? 1 = og1 at h
          cases og0 with
          | none => exact Option.noConfusion h
          | some t0 =>
            cases og1 with
            | none => exact Option.noConfusion h
            | some t1 =>
              simp only [] at h
              generalize hs0 : t0.size = os0 at h
              generalize hs1 : t1.size = os1 at h
              cases os0 with
              | none => exact Option.noConfusion h
              | some sa =>
                cases os1 with
                | none => exact Option.noConfusion h
                | some sb => exact vac _ (fun i hi => by cases hi) h
        rw [if_neg n12] at h
        by_cases n13 : name = ("apply").toList
        · rw [if_pos n13] at h; exact vac _ (fun i hi => by cases hi) h
        rw [if_neg n13] at h
        by_cases n14 : name = ("?").toList
        · rw [if_pos n14] at h
          generalize hg : sig.inputs.get? 0 = og at h
          cases og with
          | none => exact Option.noConfusion h
          | some t =>
            simp only [] at h
            generalize hs : t.size = os at h
            cases os with
            | none => exact Option.noConfusion h
            | some sz => exact vac _ (fun i hi => by cases hi) h
        rw [if_neg n14] at h
        cases h
    · intro its label c c1 h hInv
      cases its with
      | nil =>
        simp only [compileItems, Option.some.injEq] at h
        subst h
        exact ⟨hInv, Nat.le_refl _⟩
      | cons it rest =>
        simp only [compileItems] at h
        cases h1 : compileItem f it label c with
        | none => rw [h1] at h; cases h
        | some cmid =>
          rw [h1] at h
          rcases ih1 it label c cmid h1 hInv with ⟨hInvMid, hlen1⟩
          rcases ih2 rest label cmid c1 h hInvMid with ⟨hInv1, hlen2⟩
          exact ⟨hInv1, by omega⟩

/-! ### C10: string-pool indices are in bounds -/

/-- C10.  For every item tree on which `Compiler::compile` returns,
every `PushString i` instruction in the returned procedures satisfies
`i < pool.length` for the returned string-literal pool: indices are
assigned as the pool length at the moment of the push and the pool only
grows afterwards, so the generator's `string_literals[i]` lookups and
`str_i` data labels always resolve. -/
theorem c10_push_string_in_bounds (fuel : Nat) (items : List Item)
    (procs : List Proc) (pool : List (List Char))
    (h : compile fuel items = some (procs, pool)) :
    ∀ p ∈ procs, ∀ x ∈ p.code, ∀ i, x.2 = Instruction.PushString i → i < pool.length := by
  unfold compile at h
  replace h : (match compileItems fuel items ⟨0, none⟩ ⟨[⟨⟨0, none⟩, []⟩], []⟩ with
      | none => none
      | some c2 => some (c2.procs, c2.string_literals)) = some (procs, pool) := h
  cases hc : compileItems fuel items ⟨0, none⟩ ⟨[⟨⟨0, none⟩, []⟩], []⟩ with
  | none =>
    rw [hc] at h
    cases h
  | some c2 =>
    rw [hc] at h
    simp only [Option.some.injEq, Prod.mk.injEq] at h
    obtain ⟨h1, h2⟩ := h
    subst h1; subst h2
    have hInv0 : ∀ p ∈ ([⟨⟨0, none⟩, []⟩] : List Proc), ∀ x ∈ p.code, ∀ i,
        x.2 = Instruction.PushString i → i < ([] : List (List Char)).length := by
      intro p hp x hx i hi
      simp only [List.mem_singleton] at hp
      subst hp
      exact absurd hx (List.not_mem_nil x)
    exact ((compileItem_bound fuel).2 items ⟨0, none⟩ ⟨[⟨⟨0, none⟩, []⟩], []⟩ c2 hc hInv0).1

/-- C10, witness: the single-item program pushing the string literal
`"ab"` compiles to one `PushString 0` with a one-entry pool. -/
theorem c10_push_string_in_bounds_witness :
    compile 4 [.mk (.String (("\"ab\"").toList)) ⟨0, 4⟩] =
      some ([⟨⟨0, none⟩, [(⟨0, 4⟩, Instruction.PushString 0)]⟩], [[('a')]]) ∧
    0 < ([[('a')]] : List (List Char)).length :=
  ⟨rfl,
   c10_push_string_in_bounds 4 [.mk (.String (("\"ab\"").toList)) ⟨0, 4⟩]
     [⟨⟨0, none⟩, [(⟨0, 4⟩, Instruction.PushString 0)]⟩] [[('a')]] rfl
     ⟨⟨0, none⟩, [(⟨0, 4⟩, Instruction.PushString 0)]⟩ (List.mem_singleton.mpr rfl)
     (⟨0, 4⟩, Instruction.PushString 0) (List.mem_singleton.mpr rfl) 0 rfl⟩
